import Mathlib

/-
Verification of the refreshable-cache store (src/index.js).

The JavaScript implementation is shallowly embedded as a state machine:

* `CacheState` holds the association `_cache` (insertion-ordered, as a JS
  object with string property keys), the `_resetExpiryOnAccess` flag, the
  current logical time, the table of pending timers (the external
  `setTimeout`/`setInterval` facility, modelled by unique handles), the
  monotone handle counter, and the log of emitted `expiry`/`refresh` events.
* Each public method (`put`, `get`, `del`, `clear`, `resetExpiryOnAccess`,
  `size`, `keys`) is a function on `CacheState`, translated line by line
  from the source.  Throwing methods return `Except`.
* `fire`/`advance` model the timer runtime: time may only advance up to the
  next pending deadline, and a due timer runs the callback body from the
  source (`emit` then `del` for expirations, `emit` for refreshes).

JS numbers are modelled as `JNum`: NaN, the two infinities, and integer
values (no claim involves a non-integral number, and on integers JS double
arithmetic and comparisons agree with `Int`).  Property keys are JS values
coerced with `ToString`, faithfully for the value forms that occur here.
-/

namespace RefreshableCache

/-- A JavaScript number: NaN, ±Infinity, or a (finite, integral) value. -/
inductive JNum where
  | nan
  | pinf
  | ninf
  | fin (i : Int)
deriving DecidableEq

/-- A JavaScript value, covering the forms exercised by the cache API. -/
inductive JSVal where
  | undef
  | null
  | bool (b : Bool)
  | num (n : JNum)
  | str (s : String)
deriving DecidableEq

/-- JS `isNaN` on a number. -/
def jsIsNaN : JNum → Bool
  | .nan => true
  | _ => false

/-- JS `x <= 0` on a number (false for NaN). -/
def jleZero : JNum → Bool
  | .nan => false
  | .pinf => false
  | .ninf => true
  | .fin i => decide (i ≤ 0)

/-- The validation used twice in `put` (src/index.js:98,100):
`typeof x !== 'undefined' && (typeof x !== 'number' || isNaN(x) || x <= 0)`. -/
def badTimeArg : JSVal → Bool
  | .undef => false
  | .num n => jsIsNaN n || jleZero n
  | _ => true

/-- Decimal rendering of an integer, as JS `ToString` on integral numbers. -/
def intStr (i : Int) : String :=
  if i < 0 then "-" ++ Nat.repr i.natAbs else Nat.repr i.natAbs

/-- JS `ToString` on a number (integral values and the special values). -/
def jnumToString : JNum → String
  | .nan => "NaN"
  | .pinf => "Infinity"
  | .ninf => "-Infinity"
  | .fin i => intStr i

/-- JS `ToPropertyKey`/`ToString`: the string under which `_cache[key]`
stores a value. -/
def toKeyString : JSVal → String
  | .undef => "undefined"
  | .null => "null"
  | .bool true => "true"
  | .bool false => "false"
  | .num n => jnumToString n
  | .str s => s

/-- A cache record (the object built in `put`, src/index.js:104-132):
`value`, the optional stored `duration`, and the two timer handles.
As in the source, `refreshInterval` on a record is the *handle* returned by
`setInterval`. -/
structure Record where
  value : JSVal
  duration : Option JNum
  expirationTimeout : Option Nat
  refreshInterval : Option Nat
deriving DecidableEq

/-- Which of the two callbacks a pending timer runs. -/
inductive TKind where
  | expiry
  | refresh
deriving DecidableEq

/-- A pending timer owned by the external timer runtime: its handle, the
key captured by the callback closure, the callback kind, the absolute time
it is next due (`none` = never, for an infinite delay), and the re-arm
period of a `setInterval` timer. -/
structure TimerEntry where
  id : Nat
  rawKey : JSVal
  kind : TKind
  fireAt : Option Int
  period : Option Int
deriving DecidableEq

/-- An emitted notification (`self.emit('expiry'|'refresh', key, value)`).
Carries the raw key captured by the callback and the value at fire time. -/
inductive Event where
  | expiry (key : JSVal) (value : JSVal)
  | refresh (key : JSVal) (value : JSVal)
deriving DecidableEq

/-- The key argument an event was emitted with. -/
def Event.keyOf : Event → JSVal
  | .expiry k _ => k
  | .refresh k _ => k

/-- Association-list model of the JS object `_cache` (string keys, unique,
in insertion order; assignment to an existing key keeps its position). -/
def lookAssoc : List (String × Record) → String → Option Record
  | [], _ => none
  | (k', r') :: rest, k => if k' = k then some r' else lookAssoc rest k

/-- `_cache[k] = r`: overwrite in place, or append a brand-new key. -/
def putAssoc : List (String × Record) → String → Record → List (String × Record)
  | [], k, r => [(k, r)]
  | (k', r') :: rest, k, r =>
    if k' = k then (k, r) :: rest else (k', r') :: putAssoc rest k r

/-- `delete _cache[k]`. -/
def eraseKey (c : List (String × Record)) (k : String) : List (String × Record) :=
  c.filter fun kr => kr.1 != k

/-- `clearTimeout`/`clearInterval`: remove the pending timer with the given
handle; clearing an absent or already-fired handle is a no-op. -/
def clearT (l : List TimerEntry) : Option Nat → List TimerEntry
  | none => l
  | some i => l.filter fun t => t.id != i

/-- An array-index property key per ECMAScript: the canonical decimal
string of some `n < 2^32 - 1`.  Such keys come first in `Object.keys`. -/
def digitVal (c : Char) : Option Nat :=
  if 48 ≤ c.toNat ∧ c.toNat ≤ 57 then some (c.toNat - 48) else none

/-- Accumulating decimal parse of a character list. -/
def parseDigitsAux (acc : Nat) : List Char → Option Nat
  | [] => some acc
  | c :: rest =>
    match digitVal c with
    | some d => parseDigitsAux (acc * 10 + d) rest
    | none => none

/-- Parse a nonempty all-digit string. -/
def parseNatStr (s : String) : Option Nat :=
  match s.data with
  | [] => none
  | _ :: _ => parseDigitsAux 0 s.data

/-- `some n` iff the string is the canonical form of an array index `n`. -/
def isArrayIndex (s : String) : Option Nat :=
  match parseNatStr s with
  | some n => if s = Nat.repr n ∧ n < 4294967295 then some n else none
  | none => none

/-- Insertion into a list sorted by ascending numeric index. -/
def insertByIdx (p : Nat × String) : List (Nat × String) → List (Nat × String)
  | [] => [p]
  | q :: rest => if p.1 ≤ q.1 then p :: q :: rest else q :: insertByIdx p rest

/-- Insertion sort by ascending numeric index. -/
def sortByIdx : List (Nat × String) → List (Nat × String)
  | [] => []
  | p :: rest => insertByIdx p (sortByIdx rest)

/-- `Object.keys` order on an ordinary JS object: array-index keys first in
ascending numeric order, then the remaining keys in insertion order. -/
def objectKeys (c : List (String × Record)) : List String :=
  (sortByIdx ((c.map Prod.fst).filterMap fun k =>
      (isArrayIndex k).map fun n => (n, k))).map Prod.snd
    ++ (c.map Prod.fst).filter fun k => (isArrayIndex k).isNone

/-- The complete state: the store's two variables (`_cache`,
`_resetExpiryOnAccess`), plus the modelled runtime — current time, pending
timers, a fresh-handle counter, the emitted-event log, and a flag recording
whether a callback ever dereferenced a missing record (which in JS would
throw inside the timer callback and crash the process). -/
structure CacheState where
  cache : List (String × Record)
  resetExpiryOnAccess : Bool
  now : Int
  timers : List TimerEntry
  nextId : Nat
  events : List Event
  crashed : Bool
deriving DecidableEq

/-- `new RefreshableCache()`. -/
def initState : CacheState := ⟨[], false, 0, [], 0, [], false⟩

/-- Absolute due time of a timer scheduled now with the given JS delay:
a finite delay is added to the clock; an infinite delay never comes due. -/
def addDelay (now : Int) : JNum → Option Int
  | .fin d => some (now + d)
  | _ => none

/-- Re-arm period of a `setInterval` timer with the given JS delay. -/
def periodOf : JNum → Option Int
  | .fin d => some d
  | _ => none

/-- The duration branch of `put` (src/index.js:110-120): if a duration was
supplied, cancel the old record's expiration timer, store the duration, and
schedule a fresh single-fire expiry timer for `duration` from now. -/
def putDur (s : CacheState) (kraw : JSVal) (old : Option Record) (r : Record) :
    JSVal → CacheState × Record
  | .num d =>
    let t1 := match old with
      | some orec => clearT s.timers orec.expirationTimeout
      | none => s.timers
    ({ s with timers := t1 ++ [⟨s.nextId, kraw, .expiry, addDelay s.now d, none⟩],
              nextId := s.nextId + 1 },
     { r with duration := some d, expirationTimeout := some s.nextId })
  | _ => (s, r)

/-- The refresh branch of `put` (src/index.js:122-130): if an interval was
supplied, cancel the old record's refresh timer and schedule a fresh
periodic refresh timer. -/
def putRi (s : CacheState) (kraw : JSVal) (old : Option Record) (r : Record) :
    JSVal → CacheState × Record
  | .num d =>
    let t1 := match old with
      | some orec => clearT s.timers orec.refreshInterval
      | none => s.timers
    ({ s with timers := t1 ++ [⟨s.nextId, kraw, .refresh, addDelay s.now d, periodOf d⟩],
              nextId := s.nextId + 1 },
     { r with refreshInterval := some s.nextId })
  | _ => (s, r)

/-- `put(key, value, duration, refreshInterval)` (src/index.js:95-135).
Validates the two optional arguments, then updates the existing record in
place (or creates one), replacing only the timers whose argument was
supplied, and returns the written value. -/
def put (s : CacheState) (kraw v dur ri : JSVal) : Except String (CacheState × JSVal) :=
  if badTimeArg dur then .error "Expiration time must be a positive number"
  else if badTimeArg ri then .error "Refresh time must be a positive number"
  else
    let k := toKeyString kraw
    let old := lookAssoc s.cache k
    let r0 : Record := match old with
      | some orec => { orec with value := v }
      | none => ⟨v, none, none, none⟩
    let p1 := putDur s kraw old r0 dur
    let p2 := putRi p1.1 kraw old p1.2 ri
    .ok ({ p2.1 with cache := putAssoc p2.1.cache k p2.2 }, v)

/-- `get(key)` (src/index.js:24-44).  Returns `null` for an absent key;
otherwise returns the value and, when the reset-on-access flag is set and
the record carries a duration, restarts the expiration timer for the full
stored duration from now. -/
def get (s : CacheState) (kraw : JSVal) : CacheState × JSVal :=
  let k := toKeyString kraw
  match lookAssoc s.cache k with
  | none => (s, .null)
  | some r =>
    match r.duration, s.resetExpiryOnAccess with
    | some d, true =>
      ({ s with cache := putAssoc s.cache k { r with expirationTimeout := some s.nextId },
                timers := clearT s.timers r.expirationTimeout ++
                  [⟨s.nextId, kraw, .expiry, addDelay s.now d, none⟩],
                nextId := s.nextId + 1 }, r.value)
    | _, _ => (s, r.value)

/-- `del(key)` (src/index.js:58-70).  Cancels both timer handles (a no-op
for an absent handle), removes the record, and reports whether a record was
removed.  Emits nothing. -/
def del (s : CacheState) (kraw : JSVal) : CacheState × Bool :=
  let k := toKeyString kraw
  match lookAssoc s.cache k with
  | none => (s, false)
  | some r =>
    ({ s with cache := eraseKey s.cache k,
              timers := clearT (clearT s.timers r.expirationTimeout) r.refreshInterval },
     true)

/-- Whether some record in the cache owns the given timer handle. -/
def refd (c : List (String × Record)) (i : Nat) : Bool :=
  c.any fun kr => kr.2.expirationTimeout == some i || kr.2.refreshInterval == some i

/-- `clear()` (src/index.js:143-151): cancel every handle owned by some
record, then drop the whole map. -/
def clear (s : CacheState) : CacheState :=
  { s with cache := [], timers := s.timers.filter fun t => !refd s.cache t.id }

/-- `resetExpiryOnAccess(shouldResetExpiry)` (src/index.js:159-165). -/
def resetExpiryOnAccess (s : CacheState) : JSVal → Except String CacheState
  | .undef => .ok { s with resetExpiryOnAccess := true }
  | .bool b => .ok { s with resetExpiryOnAccess := b }
  | _ => .error "Reset expiry on get flag must be a boolean"

/-- `keys()` (src/index.js:183-185): `Object.keys(_cache)`. -/
def keys (s : CacheState) : List String := objectKeys s.cache

/-- `size()` (src/index.js:173-175): `Object.keys(_cache).length`. -/
def size (s : CacheState) : Nat := (keys s).length

/-- Re-arm the interval timer with handle `i` after it fired. -/
def rearm (i : Nat) (t : TimerEntry) : TimerEntry :=
  if t.id = i then
    { t with fireAt := match t.fireAt, t.period with
        | some q, some p => some (q + p)
        | _, _ => t.fireAt }
  else t

/-- The timer runtime fires the due timer with handle `i`: only a pending
timer whose deadline is exactly now can fire.  An expiration callback runs
`self.emit('expiry', key, _cache[key].value); self.del(key);`
(src/index.js:116-119) after the one-shot timer is dequeued; a refresh
callback runs `self.emit('refresh', key, _cache[key].value);`
(src/index.js:127-129) and the interval re-arms.  If the callback's
`_cache[key]` dereference finds no record, the JS callback would throw:
the model records that as `crashed`. -/
def fire (s : CacheState) (i : Nat) : Option CacheState :=
  match s.timers.find? fun t => t.id == i with
  | none => none
  | some t =>
    match t.fireAt with
    | none => none
    | some q =>
      if q = s.now then
        match t.kind with
        | .expiry =>
          let s1 := { s with timers := clearT s.timers (some i) }
          match lookAssoc s1.cache (toKeyString t.rawKey) with
          | none => some { s1 with crashed := true }
          | some r =>
            some (del { s1 with events := s1.events ++ [.expiry t.rawKey r.value] } t.rawKey).1
        | .refresh =>
          match lookAssoc s.cache (toKeyString t.rawKey) with
          | none => some { s with crashed := true }
          | some r =>
            some { s with timers := s.timers.map (rearm i),
                          events := s.events ++ [.refresh t.rawKey r.value] }
      else none

/-- Time may advance, but never past a pending deadline: a due timer must
fire before the clock moves beyond its due time. -/
def advance (s : CacheState) (t : Int) : Option CacheState :=
  if decide (s.now ≤ t) &&
      (s.timers.all fun tm => match tm.fireAt with
        | some q => decide (t ≤ q)
        | none => true) then
    some { s with now := t }
  else none

/-- One observable step: a public method call (a throwing call leaves the
state unchanged and surfaces the error to the caller), a timer firing, or
the passage of time. -/
inductive Act where
  | doPut (kraw v dur ri : JSVal)
  | doGet (kraw : JSVal)
  | doDel (kraw : JSVal)
  | doClear
  | doReset (flag : JSVal)
  | doFire (i : Nat)
  | doAdvance (t : Int)
deriving DecidableEq

/-- Execute one step; `none` when a runtime step is not enabled. -/
def execAct (s : CacheState) : Act → Option CacheState
  | .doPut k v d ri =>
    match put s k v d ri with
    | .ok p => some p.1
    | .error _ => some s
  | .doGet k => some (get s k).1
  | .doDel k => some (del s k).1
  | .doClear => some (clear s)
  | .doReset f =>
    match resetExpiryOnAccess s f with
    | .ok s' => some s'
    | .error _ => some s
  | .doFire i => fire s i
  | .doAdvance t => advance s t

/-- Run a sequence of steps. -/
def run (s : CacheState) : List Act → Option CacheState
  | [] => some s
  | a :: tr =>
    match execAct s a with
    | some s' => run s' tr
    | none => none

/-- States reachable from a fresh store. -/
def Reachable (s : CacheState) : Prop := ∃ tr, run initState tr = some s

/-- The events of the log concerning the (coerced) key `k`. -/
def eventsFor (s : CacheState) (k : String) : List Event :=
  s.events.filter fun e => toKeyString e.keyOf == k

/-- The handle a record registers for a timer kind. -/
def handleOf (r : Record) : TKind → Option Nat
  | .expiry => r.expirationTimeout
  | .refresh => r.refreshInterval

theorem mem_clearT {l : List TimerEntry} {h : Option Nat} {t : TimerEntry} :
    t ∈ clearT l h ↔ t ∈ l ∧ some t.id ≠ h := by
  cases h with
  | none => simp [clearT]
  | some i => simp [clearT, List.mem_filter, bne_iff_ne]

theorem clearT_sublist (l : List TimerEntry) (h : Option Nat) : (clearT l h).Sublist l := by
  cases h with
  | none => exact List.Sublist.refl l
  | some i => exact List.filter_sublist l

theorem clearT_append (l1 l2 : List TimerEntry) (h : Option Nat) :
    clearT (l1 ++ l2) h = clearT l1 h ++ clearT l2 h := by
  cases h <;> simp [clearT, List.filter_append]

theorem clearT_singleton_ne {t : TimerEntry} {h : Option Nat} (hne : some t.id ≠ h) :
    clearT [t] h = [t] := by
  cases h with
  | none => rfl
  | some i =>
    have hb : (t.id != i) = true := bne_iff_ne.mpr fun hh => hne (by rw [hh])
    simp [clearT, List.filter_cons, hb]

theorem mem_eraseKey {c : List (String × Record)} {k : String} {kr : String × Record} :
    kr ∈ eraseKey c k ↔ kr ∈ c ∧ kr.1 ≠ k := by
  simp [eraseKey, List.mem_filter, bne_iff_ne]

theorem map_fst_eraseKey (c : List (String × Record)) (k : String) :
    (eraseKey c k).map Prod.fst = (c.map Prod.fst).filter fun x => x != k := by
  induction c with
  | nil => rfl
  | cons kr rest ih =>
    simp only [eraseKey, List.filter_cons, List.map_cons] at ih ⊢
    by_cases hk : kr.1 = k
    · simp [hk, ih]
    · simp [bne_iff_ne.mpr hk, ih]

theorem lookAssoc_eraseKey_self (c : List (String × Record)) (k : String) :
    lookAssoc (eraseKey c k) k = none := by
  induction c with
  | nil => rfl
  | cons kr rest ih =>
    obtain ⟨k1, r1⟩ := kr
    simp only [eraseKey, List.filter_cons] at ih ⊢
    by_cases hk : k1 = k
    · simp [hk, ih]
    · simp [bne_iff_ne.mpr hk, lookAssoc, hk, ih]

theorem lookAssoc_eraseKey_ne (c : List (String × Record)) {k k' : String} (h : k' ≠ k) :
    lookAssoc (eraseKey c k) k' = lookAssoc c k' := by
  induction c with
  | nil => rfl
  | cons kr rest ih =>
    obtain ⟨k1, r1⟩ := kr
    simp only [eraseKey, List.filter_cons] at ih ⊢
    by_cases hk : k1 = k
    · subst hk
      simp only [bne_self_eq_false]
      rw [if_neg (by simp), ih, lookAssoc, if_neg fun hh => h hh.symm]
    · simp only [bne_iff_ne.mpr hk, if_true, lookAssoc]
      by_cases hk' : k1 = k'
      · simp [hk']
      · simpa [hk'] using ih

theorem lookAssoc_putAssoc_self (c : List (String × Record)) (k : String) (r : Record) :
    lookAssoc (putAssoc c k r) k = some r := by
  induction c with
  | nil => simp [putAssoc, lookAssoc]
  | cons kr rest ih =>
    obtain ⟨k1, r1⟩ := kr
    by_cases hk : k1 = k
    · simp [putAssoc, hk, lookAssoc]
    · simpa [putAssoc, hk, lookAssoc] using ih

theorem lookAssoc_putAssoc_ne (c : List (String × Record)) {k k' : String} (r : Record)
    (h : k' ≠ k) : lookAssoc (putAssoc c k r) k' = lookAssoc c k' := by
  have h' : k ≠ k' := Ne.symm h
  induction c with
  | nil => simp [putAssoc, lookAssoc, h']
  | cons kr rest ih =>
    obtain ⟨k1, r1⟩ := kr
    by_cases hk : k1 = k
    · subst hk
      simp [putAssoc, lookAssoc, h']
    · simp only [putAssoc, hk, if_false, lookAssoc]
      by_cases hk' : k1 = k'
      · simp [hk']
      · simpa [hk'] using ih

theorem map_fst_putAssoc_present (c : List (String × Record)) {k : String} (r : Record)
    (h : lookAssoc c k ≠ none) : (putAssoc c k r).map Prod.fst = c.map Prod.fst := by
  induction c with
  | nil => simp [lookAssoc] at h
  | cons kr rest ih =>
    obtain ⟨k1, r1⟩ := kr
    by_cases hk : k1 = k
    · simp [putAssoc, hk]
    · simp only [lookAssoc, hk, if_false] at h
      simp [putAssoc, hk, ih h]

theorem map_fst_putAssoc_absent (c : List (String × Record)) {k : String} (r : Record)
    (h : lookAssoc c k = none) : (putAssoc c k r).map Prod.fst = c.map Prod.fst ++ [k] := by
  induction c with
  | nil => rfl
  | cons kr rest ih =>
    obtain ⟨k1, r1⟩ := kr
    by_cases hk : k1 = k
    · simp [lookAssoc, hk] at h
    · simp only [lookAssoc, hk, if_false] at h
      simp [putAssoc, hk, ih h]

theorem lookAssoc_mem {c : List (String × Record)} {k : String} {r : Record}
    (h : lookAssoc c k = some r) : (k, r) ∈ c := by
  induction c with
  | nil => simp [lookAssoc] at h
  | cons kr rest ih =>
    obtain ⟨k1, r1⟩ := kr
    by_cases hk : k1 = k
    · simp only [lookAssoc, hk, if_true, Option.some.injEq] at h
      subst hk; subst h; exact List.mem_cons_self _ _
    · simp only [lookAssoc, hk, if_false] at h
      exact List.mem_cons_of_mem _ (ih h)

theorem lookAssoc_eq_none {c : List (String × Record)} {k : String} :
    lookAssoc c k = none ↔ k ∉ c.map Prod.fst := by
  induction c with
  | nil => simp [lookAssoc]
  | cons kr rest ih =>
    obtain ⟨k1, r1⟩ := kr
    by_cases hk : k1 = k
    · simp [lookAssoc, hk]
    · simp [lookAssoc, hk, ih, Ne.symm hk]

/-- Hygiene of the modelled timer runtime: handles are unique, below the
fresh counter, deadlines are never in the past, periods are positive. -/
def TimersOk (l : List TimerEntry) (n : Nat) (now : Int) : Prop :=
  (l.map TimerEntry.id).Nodup ∧ (∀ t ∈ l, t.id < n) ∧
    (∀ t ∈ l, ∀ q, t.fireAt = some q → now ≤ q) ∧
    (∀ t ∈ l, ∀ p, t.period = some p → 0 < p)

theorem timersOk_sublist {l l' : List TimerEntry} {n : Nat} {now : Int}
    (h : TimersOk l n now) (hs : l'.Sublist l) : TimersOk l' n now := by
  obtain ⟨nd, lt, fu, pp⟩ := h
  exact ⟨nd.sublist (hs.map _), fun t ht => lt t (hs.mem ht),
    fun t ht => fu t (hs.mem ht), fun t ht => pp t (hs.mem ht)⟩

theorem timersOk_clearT {l : List TimerEntry} {n : Nat} {now : Int}
    (h : TimersOk l n now) (hd : Option Nat) : TimersOk (clearT l hd) n now :=
  timersOk_sublist h (clearT_sublist l hd)

theorem timersOk_append_fresh {l : List TimerEntry} {n : Nat} {now : Int}
    (h : TimersOk l n now) (kraw : JSVal) (kd : TKind) {fa per : Option Int}
    (hfa : ∀ q, fa = some q → now ≤ q) (hper : ∀ p, per = some p → 0 < p) :
    TimersOk (l ++ [⟨n, kraw, kd, fa, per⟩]) (n + 1) now := by
  obtain ⟨nd, lt, fu, pp⟩ := h
  refine ⟨?_, ?_, ?_, ?_⟩
  · rw [List.map_append]
    refine nd.append (by simp) ?_
    intro a ha hb
    simp only [List.map_cons, List.map_nil, List.mem_singleton] at hb
    simp only [List.mem_map] at ha
    obtain ⟨t, ht, rfl⟩ := ha
    exact absurd hb (Nat.ne_of_lt (lt t ht))
  · intro t ht
    rcases List.mem_append.mp ht with h1 | h1
    · exact Nat.lt_succ_of_lt (lt t h1)
    · simp only [List.mem_singleton] at h1
      subst h1; exact Nat.lt_succ_self n
  · intro t ht q hq
    rcases List.mem_append.mp ht with h1 | h1
    · exact fu t h1 q hq
    · simp only [List.mem_singleton] at h1
      subst h1; exact hfa q hq
  · intro t ht p hp
    rcases List.mem_append.mp ht with h1 | h1
    · exact pp t h1 p hp
    · simp only [List.mem_singleton] at h1
      subst h1; exact hper p hp

theorem addDelay_future {d : JNum} (h : badTimeArg (.num d) = false) (now : Int) :
    ∀ q, addDelay now d = some q → now ≤ q := by
  intro q hq
  cases d with
  | nan => simp [badTimeArg, jsIsNaN] at h
  | pinf => simp [addDelay] at hq
  | ninf => simp [badTimeArg, jsIsNaN, jleZero] at h
  | fin i =>
    simp only [badTimeArg, jsIsNaN, jleZero, Bool.false_or, decide_eq_false_iff_not] at h
    simp only [addDelay, Option.some.injEq] at hq
    omega

theorem periodOf_pos {d : JNum} (h : badTimeArg (.num d) = false) :
    ∀ p, periodOf d = some p → 0 < p := by
  intro p hp
  cases d with
  | nan => simp [badTimeArg, jsIsNaN] at h
  | pinf => simp [periodOf] at hp
  | ninf => simp [badTimeArg, jsIsNaN, jleZero] at h
  | fin i =>
    simp only [badTimeArg, jsIsNaN, jleZero, Bool.false_or, decide_eq_false_iff_not] at h
    simp only [periodOf, Option.some.injEq] at hp
    omega

/-- The state invariant (C2's data-model invariants): keys are unique; the
timer table is hygienic; every pending timer is owned, under its own
handle, by the record of its key (`live`); every handle a record holds is a
pending timer of the matching kind and key (`reg`); and no callback ever
dereferenced a missing record. -/
structure Inv (s : CacheState) : Prop where
  keysND : (s.cache.map Prod.fst).Nodup
  tOk : TimersOk s.timers s.nextId s.now
  live : ∀ t ∈ s.timers, ∃ r, lookAssoc s.cache (toKeyString t.rawKey) = some r ∧
    handleOf r t.kind = some t.id
  reg : ∀ k r, lookAssoc s.cache k = some r → ∀ kd i, handleOf r kd = some i →
    ∃ t, t ∈ s.timers ∧ t.id = i ∧ t.kind = kd ∧ toKeyString t.rawKey = k
  durOk : ∀ k r, lookAssoc s.cache k = some r → ∀ d, r.duration = some d →
    badTimeArg (.num d) = false
  noCrash : s.crashed = false

theorem Inv.idInj {s : CacheState} (hi : Inv s) :
    ∀ t1 ∈ s.timers, ∀ t2 ∈ s.timers, t1.id = t2.id → t1 = t2 :=
  List.inj_on_of_nodup_map hi.tOk.1

/-- A handle registered by the record of `k0` for kind `kd0` can only be
the handle of a pending timer of that same kind and key. -/
theorem Inv.handleUnique {s : CacheState} (hi : Inv s) {k0 : String} {r0 : Record}
    (hk : lookAssoc s.cache k0 = some r0) {kd0 : TKind} {i : Nat}
    (hh : handleOf r0 kd0 = some i) {t : TimerEntry} (ht : t ∈ s.timers) (hid : t.id = i) :
    t.kind = kd0 ∧ toKeyString t.rawKey = k0 := by
  obtain ⟨t2, ht2, hid2, hkd2, hkey2⟩ := hi.reg k0 r0 hk kd0 i hh
  have := hi.idInj t ht t2 ht2 (by rw [hid, hid2])
  subst this
  exact ⟨hkd2, hkey2⟩

/-- A pending timer of a different kind or key survives clearing the handle
that the record of `k0` registered for `kd0`. -/
theorem Inv.survivesClear {s : CacheState} (hi : Inv s) {k0 : String} {r0 : Record}
    (hk : lookAssoc s.cache k0 = some r0) (kd0 : TKind) {t : TimerEntry} (ht : t ∈ s.timers)
    (hne : ¬(t.kind = kd0 ∧ toKeyString t.rawKey = k0)) : some t.id ≠ handleOf r0 kd0 := by
  intro heq
  exact hne (hi.handleUnique hk heq.symm ht rfl)

theorem inv_initState : Inv initState := by
  refine ⟨?_, ⟨?_, ?_, ?_, ?_⟩, ?_, ?_, ?_, ?_⟩ <;> simp [initState, lookAssoc]

theorem inv_del {s : CacheState} (hi : Inv s) (kraw : JSVal) : Inv (del s kraw).1 := by
  cases hl : lookAssoc s.cache (toKeyString kraw) with
  | none =>
    simp only [del, hl]
    exact hi
  | some r =>
    simp only [del, hl]
    refine ⟨?_, ?_, ?_, ?_, ?_, ?_⟩
    · rw [map_fst_eraseKey]
      exact hi.keysND.filter _
    · exact timersOk_clearT (timersOk_clearT hi.tOk _) _
    · intro t ht
      rw [mem_clearT] at ht
      obtain ⟨ht1, hrf⟩ := ht
      rw [mem_clearT] at ht1
      obtain ⟨ht2, hex⟩ := ht1
      obtain ⟨r', hr', hh'⟩ := hi.live t ht2
      by_cases hkey : toKeyString t.rawKey = toKeyString kraw
      · rw [hkey, hl, Option.some.injEq] at hr'
        subst hr'
        cases hkd : t.kind with
        | expiry =>
          rw [hkd] at hh'
          simp only [handleOf] at hh'
          exact absurd hh'.symm hex
        | refresh =>
          rw [hkd] at hh'
          simp only [handleOf] at hh'
          exact absurd hh'.symm hrf
      · exact ⟨r', by rw [lookAssoc_eraseKey_ne _ hkey]; exact hr', hh'⟩
    · intro k' r' hr' kd i hh
      have hk'ne : k' ≠ toKeyString kraw := by
        intro e
        rw [e, lookAssoc_eraseKey_self] at hr'
        cases hr'
      rw [lookAssoc_eraseKey_ne _ hk'ne] at hr'
      obtain ⟨t, ht, hid, hkd, hkey⟩ := hi.reg k' r' hr' kd i hh
      refine ⟨t, ?_, hid, hkd, hkey⟩
      rw [mem_clearT]
      refine ⟨?_, hi.survivesClear hl .refresh ht fun hc => hk'ne (hkey ▸ hc.2.symm ▸ rfl)⟩
      rw [mem_clearT]
      exact ⟨ht, hi.survivesClear hl .expiry ht fun hc => hk'ne (hkey ▸ hc.2.symm ▸ rfl)⟩
    · intro k' r' hr' d hd
      have hk'ne : k' ≠ toKeyString kraw := by
        intro e
        rw [e, lookAssoc_eraseKey_self] at hr'
        cases hr'
      rw [lookAssoc_eraseKey_ne _ hk'ne] at hr'
      exact hi.durOk k' r' hr' d hd
    · exact hi.noCrash

theorem clear_timers_nil {s : CacheState} (hi : Inv s) : (clear s).timers = [] := by
  rw [List.eq_nil_iff_forall_not_mem]
  intro t ht
  unfold clear at ht
  simp only at ht
  rw [List.mem_filter] at ht
  obtain ⟨ht, hp⟩ := ht
  obtain ⟨r, hr, hh⟩ := hi.live t ht
  have hrefd : refd s.cache t.id = true := by
    unfold refd
    rw [List.any_eq_true]
    refine ⟨(toKeyString t.rawKey, r), lookAssoc_mem hr, ?_⟩
    cases hkd : t.kind with
    | expiry =>
      rw [hkd] at hh
      simp only [handleOf] at hh
      simp [hh]
    | refresh =>
      rw [hkd] at hh
      simp only [handleOf] at hh
      simp [hh]
  rw [hrefd] at hp
  cases hp

theorem inv_clear {s : CacheState} (hi : Inv s) : Inv (clear s) := by
  have htn := clear_timers_nil hi
  refine ⟨?_, ?_, ?_, ?_, ?_, ?_⟩
  · simp [clear]
  · rw [htn]
    exact ⟨by simp, by simp, by simp, by simp⟩
  · rw [htn]
    intro t ht
    cases ht
  · intro k r hr
    simp [clear, lookAssoc] at hr
  · intro k r hr
    simp [clear, lookAssoc] at hr
  · exact hi.noCrash

theorem inv_get {s : CacheState} (hi : Inv s) (kraw : JSVal) : Inv (get s kraw).1 := by
  cases hl : lookAssoc s.cache (toKeyString kraw) with
  | none =>
    simp only [get, hl]
    exact hi
  | some r =>
    cases hd : r.duration with
    | none =>
      simp only [get, hl, hd]
      exact hi
    | some d =>
      cases hflag : s.resetExpiryOnAccess with
      | false =>
        simp only [get, hl, hd, hflag]
        exact hi
      | true =>
        simp only [get, hl, hd, hflag]
        have hval : badTimeArg (.num d) = false := hi.durOk _ r hl d hd
        refine ⟨?_, ?_, ?_, ?_, ?_, ?_⟩
        · rw [map_fst_putAssoc_present _ _ (by simp [hl])]
          exact hi.keysND
        · exact timersOk_append_fresh (timersOk_clearT hi.tOk _) kraw .expiry
            (addDelay_future hval s.now) (by intro p hp; cases hp)
        · intro t ht
          rcases List.mem_append.mp ht with h1 | h1
          · rw [mem_clearT] at h1
            obtain ⟨ht2, hex⟩ := h1
            obtain ⟨r'', hr'', hh''⟩ := hi.live t ht2
            by_cases hkey : toKeyString t.rawKey = toKeyString kraw
            · rw [hkey, hl, Option.some.injEq] at hr''
              subst hr''
              cases hkd : t.kind with
              | expiry =>
                rw [hkd] at hh''
                simp only [handleOf] at hh''
                exact absurd hh''.symm hex
              | refresh =>
                rw [hkd] at hh''
                simp only [handleOf] at hh''
                exact ⟨⟨r.value, some d, some s.nextId, r.refreshInterval⟩,
                  by rw [hkey]; exact lookAssoc_putAssoc_self .., hh''⟩
            · exact ⟨r'', by rw [lookAssoc_putAssoc_ne _ _ hkey]; exact hr'', hh''⟩
          · simp only [List.mem_singleton] at h1
            subst h1
            exact ⟨⟨r.value, some d, some s.nextId, r.refreshInterval⟩,
              lookAssoc_putAssoc_self .., rfl⟩
        · intro k' r' hr' kd i hh
          by_cases hk' : k' = toKeyString kraw
          · subst hk'
            rw [lookAssoc_putAssoc_self] at hr'
            injection hr' with hr'
            subst hr'
            cases kd with
            | expiry =>
              simp only [handleOf] at hh
              injection hh with hh
              subst hh
              exact ⟨⟨s.nextId, kraw, .expiry, addDelay s.now d, none⟩,
                List.mem_append_right _ (List.mem_singleton_self _), rfl, rfl, rfl⟩
            | refresh =>
              simp only [handleOf] at hh
              obtain ⟨t, ht, hid, hkd2, hkey2⟩ := hi.reg _ r hl .refresh i hh
              refine ⟨t, List.mem_append_left _ ?_, hid, hkd2, hkey2⟩
              rw [mem_clearT]
              exact ⟨ht, hi.survivesClear hl .expiry ht
                fun hc => TKind.noConfusion (hc.1.symm.trans hkd2)⟩
          · rw [lookAssoc_putAssoc_ne _ _ hk'] at hr'
            obtain ⟨t, ht, hid, hkd2, hkey2⟩ := hi.reg k' r' hr' kd i hh
            refine ⟨t, List.mem_append_left _ ?_, hid, hkd2, hkey2⟩
            rw [mem_clearT]
            exact ⟨ht, hi.survivesClear hl .expiry ht fun hc => hk' (hkey2.symm.trans hc.2)⟩
        · intro k' r' hr' d' hd'
          by_cases hk' : k' = toKeyString kraw
          · subst hk'
            rw [lookAssoc_putAssoc_self] at hr'
            injection hr' with hr'
            subst hr'
            have hdd : some d = some d' := hd'
            injection hdd with hdd
            subst hdd
            exact hval
          · rw [lookAssoc_putAssoc_ne _ _ hk'] at hr'
            exact hi.durOk k' r' hr' d' hd'
        · exact hi.noCrash

theorem badTimeArg_undef : badTimeArg JSVal.undef = false := rfl

theorem put_ok {s : CacheState} {kraw v dur ri : JSVal} (hd : badTimeArg dur = false)
    (hri : badTimeArg ri = false) :
    put s kraw v dur ri = .ok
      (let k := toKeyString kraw
       let old := lookAssoc s.cache k
       let r0 : Record := match old with
         | some orec => { orec with value := v }
         | none => ⟨v, none, none, none⟩
       let p1 := putDur s kraw old r0 dur
       let p2 := putRi p1.1 kraw old p1.2 ri
       ({ p2.1 with cache := putAssoc p2.1.cache k p2.2 }, v)) := by
  unfold put
  rw [if_neg (by simp [hd]), if_neg (by simp [hri])]

theorem putAssoc_putAssoc (c : List (String × Record)) (k : String) (r1 r2 : Record) :
    putAssoc (putAssoc c k r1) k r2 = putAssoc c k r2 := by
  induction c with
  | nil => simp [putAssoc]
  | cons kr rest ih =>
    obtain ⟨k1, rr⟩ := kr
    by_cases hk : k1 = k
    · simp [putAssoc, hk]
    · simp [putAssoc, hk, ih]

theorem nodup_map_fst_putAssoc (c : List (String × Record)) (k : String) (r : Record)
    (h : (c.map Prod.fst).Nodup) : ((putAssoc c k r).map Prod.fst).Nodup := by
  cases hl : lookAssoc c k with
  | none =>
    rw [map_fst_putAssoc_absent _ _ hl]
    refine h.append (List.nodup_singleton k) ?_
    intro a ha hb
    rw [List.mem_singleton] at hb
    subst hb
    exact (lookAssoc_eq_none.mp hl) ha
  | some o =>
    rw [map_fst_putAssoc_present _ _ (by simp [hl])]
    exact h

/-- Any handle a record registers is strictly below the fresh counter. -/
theorem Inv.regLt {s : CacheState} (hi : Inv s) {k : String} {o : Record}
    (hl : lookAssoc s.cache k = some o) {kd : TKind} {i : Nat}
    (hh : handleOf o kd = some i) : i < s.nextId := by
  obtain ⟨t, ht, hid, _, _⟩ := hi.reg k o hl kd i hh
  exact hid ▸ hi.tOk.2.1 t ht

theorem inv_put_durOnly {s s' : CacheState} {kraw v dur rv : JSVal}
    (h : put s kraw v dur .undef = .ok (s', rv)) (hi : Inv s) : Inv s' := by
  have hbad : badTimeArg dur = false := by
    cases hbb : badTimeArg dur with
    | false => rfl
    | true =>
      rw [put, if_pos (by simp [hbb])] at h
      cases h
  cases dur with
  | null => simp [badTimeArg] at hbad
  | bool b => simp [badTimeArg] at hbad
  | str st => simp [badTimeArg] at hbad
  | undef =>
    rw [put_ok badTimeArg_undef badTimeArg_undef] at h
    cases hl : lookAssoc s.cache (toKeyString kraw) with
    | none =>
      simp only [putDur, putRi, hl, Except.ok.injEq, Prod.mk.injEq] at h
      obtain ⟨h1, h2⟩ := h
      subst h1
      refine ⟨nodup_map_fst_putAssoc _ _ _ hi.keysND, hi.tOk, ?_, ?_, ?_, hi.noCrash⟩
      · intro t ht
        obtain ⟨r'', hr'', hh''⟩ := hi.live t ht
        have hkey : toKeyString t.rawKey ≠ toKeyString kraw := by
          intro e
          rw [e, hl] at hr''
          cases hr''
        exact ⟨r'', by rw [lookAssoc_putAssoc_ne _ _ hkey]; exact hr'', hh''⟩
      · intro k' r' hr' kd i hh
        by_cases hk' : k' = toKeyString kraw
        · subst hk'
          rw [lookAssoc_putAssoc_self] at hr'
          injection hr' with hr'
          subst hr'
          cases kd <;> exact Option.noConfusion hh
        · rw [lookAssoc_putAssoc_ne _ _ hk'] at hr'
          exact hi.reg k' r' hr' kd i hh
      · intro k' r' hr' d' hd'
        by_cases hk' : k' = toKeyString kraw
        · subst hk'
          rw [lookAssoc_putAssoc_self] at hr'
          injection hr' with hr'
          subst hr'
          exact Option.noConfusion hd'
        · rw [lookAssoc_putAssoc_ne _ _ hk'] at hr'
          exact hi.durOk k' r' hr' d' hd'
    | some o =>
      simp only [putDur, putRi, hl, Except.ok.injEq, Prod.mk.injEq] at h
      obtain ⟨h1, h2⟩ := h
      subst h1
      refine ⟨nodup_map_fst_putAssoc _ _ _ hi.keysND, hi.tOk, ?_, ?_, ?_, hi.noCrash⟩
      · intro t ht
        obtain ⟨r'', hr'', hh''⟩ := hi.live t ht
        by_cases hkey : toKeyString t.rawKey = toKeyString kraw
        · rw [hkey, hl, Option.some.injEq] at hr''
          subst hr''
          refine ⟨⟨v, o.duration, o.expirationTimeout, o.refreshInterval⟩,
            by rw [hkey]; exact lookAssoc_putAssoc_self .., ?_⟩
          cases hkd : t.kind with
          | expiry =>
            rw [hkd] at hh''
            simpa only [handleOf] using hh''
          | refresh =>
            rw [hkd] at hh''
            simpa only [handleOf] using hh''
        · exact ⟨r'', by rw [lookAssoc_putAssoc_ne _ _ hkey]; exact hr'', hh''⟩
      · intro k' r' hr' kd i hh
        by_cases hk' : k' = toKeyString kraw
        · subst hk'
          rw [lookAssoc_putAssoc_self] at hr'
          injection hr' with hr'
          subst hr'
          have hh2 : handleOf o kd = some i := by
            cases kd <;> simpa only [handleOf] using hh
          exact hi.reg _ o hl kd i hh2
        · rw [lookAssoc_putAssoc_ne _ _ hk'] at hr'
          exact hi.reg k' r' hr' kd i hh
      · intro k' r' hr' d' hd'
        by_cases hk' : k' = toKeyString kraw
        · subst hk'
          rw [lookAssoc_putAssoc_self] at hr'
          injection hr' with hr'
          subst hr'
          exact hi.durOk _ o hl d' hd'
        · rw [lookAssoc_putAssoc_ne _ _ hk'] at hr'
          exact hi.durOk k' r' hr' d' hd'
  | num d =>
    rw [put_ok hbad badTimeArg_undef] at h
    cases hl : lookAssoc s.cache (toKeyString kraw) with
    | none =>
      simp only [putDur, putRi, hl, Except.ok.injEq, Prod.mk.injEq] at h
      obtain ⟨h1, h2⟩ := h
      subst h1
      refine ⟨nodup_map_fst_putAssoc _ _ _ hi.keysND, ?_, ?_, ?_, ?_, hi.noCrash⟩
      · exact timersOk_append_fresh hi.tOk kraw .expiry (addDelay_future hbad s.now)
          (fun p hp => Option.noConfusion hp)
      · intro t ht
        rcases List.mem_append.mp ht with h1 | h1
        · obtain ⟨r'', hr'', hh''⟩ := hi.live t h1
          have hkey : toKeyString t.rawKey ≠ toKeyString kraw := by
            intro e
            rw [e, hl] at hr''
            cases hr''
          exact ⟨r'', by rw [lookAssoc_putAssoc_ne _ _ hkey]; exact hr'', hh''⟩
        · simp only [List.mem_singleton] at h1
          subst h1
          exact ⟨⟨v, some d, some s.nextId, none⟩, lookAssoc_putAssoc_self .., rfl⟩
      · intro k' r' hr' kd i hh
        by_cases hk' : k' = toKeyString kraw
        · subst hk'
          rw [lookAssoc_putAssoc_self] at hr'
          injection hr' with hr'
          subst hr'
          cases kd with
          | expiry =>
            simp only [handleOf] at hh
            injection hh with hh
            subst hh
            exact ⟨⟨s.nextId, kraw, .expiry, addDelay s.now d, none⟩,
              List.mem_append_right _ (List.mem_singleton_self _), rfl, rfl, rfl⟩
          | refresh => exact Option.noConfusion hh
        · rw [lookAssoc_putAssoc_ne _ _ hk'] at hr'
          obtain ⟨t, ht, hid, hkd2, hkey2⟩ := hi.reg k' r' hr' kd i hh
          exact ⟨t, List.mem_append_left _ ht, hid, hkd2, hkey2⟩
      · intro k' r' hr' d' hd'
        by_cases hk' : k' = toKeyString kraw
        · subst hk'
          rw [lookAssoc_putAssoc_self] at hr'
          injection hr' with hr'
          subst hr'
          have hdd : some d = some d' := hd'
          injection hdd with hdd
          subst hdd
          exact hbad
        · rw [lookAssoc_putAssoc_ne _ _ hk'] at hr'
          exact hi.durOk k' r' hr' d' hd'
    | some o =>
      simp only [putDur, putRi, hl, Except.ok.injEq, Prod.mk.injEq] at h
      obtain ⟨h1, h2⟩ := h
      subst h1
      refine ⟨nodup_map_fst_putAssoc _ _ _ hi.keysND, ?_, ?_, ?_, ?_, hi.noCrash⟩
      · exact timersOk_append_fresh (timersOk_clearT hi.tOk _) kraw .expiry
          (addDelay_future hbad s.now) (fun p hp => Option.noConfusion hp)
      · intro t ht
        rcases List.mem_append.mp ht with h1 | h1
        · rw [mem_clearT] at h1
          obtain ⟨ht2, hex⟩ := h1
          obtain ⟨r'', hr'', hh''⟩ := hi.live t ht2
          by_cases hkey : toKeyString t.rawKey = toKeyString kraw
          · rw [hkey, hl, Option.some.injEq] at hr''
            subst hr''
            cases hkd : t.kind with
            | expiry =>
              rw [hkd] at hh''
              simp only [handleOf] at hh''
              exact absurd hh''.symm hex
            | refresh =>
              rw [hkd] at hh''
              simp only [handleOf] at hh''
              exact ⟨⟨v, some d, some s.nextId, o.refreshInterval⟩,
                by rw [hkey]; exact lookAssoc_putAssoc_self .., hh''⟩
          · exact ⟨r'', by rw [lookAssoc_putAssoc_ne _ _ hkey]; exact hr'', hh''⟩
        · simp only [List.mem_singleton] at h1
          subst h1
          exact ⟨⟨v, some d, some s.nextId, o.refreshInterval⟩, lookAssoc_putAssoc_self .., rfl⟩
      · intro k' r' hr' kd i hh
        by_cases hk' : k' = toKeyString kraw
        · subst hk'
          rw [lookAssoc_putAssoc_self] at hr'
          injection hr' with hr'
          subst hr'
          cases kd with
          | expiry =>
            simp only [handleOf] at hh
            injection hh with hh
            subst hh
            exact ⟨⟨s.nextId, kraw, .expiry, addDelay s.now d, none⟩,
              List.mem_append_right _ (List.mem_singleton_self _), rfl, rfl, rfl⟩
          | refresh =>
            simp only [handleOf] at hh
            obtain ⟨t, ht, hid, hkd2, hkey2⟩ := hi.reg _ o hl .refresh i hh
            refine ⟨t, List.mem_append_left _ ?_, hid, hkd2, hkey2⟩
            rw [mem_clearT]
            exact ⟨ht, hi.survivesClear hl .expiry ht
              fun hc => TKind.noConfusion (hc.1.symm.trans hkd2)⟩
        · rw [lookAssoc_putAssoc_ne _ _ hk'] at hr'
          obtain ⟨t, ht, hid, hkd2, hkey2⟩ := hi.reg k' r' hr' kd i hh
          refine ⟨t, List.mem_append_left _ ?_, hid, hkd2, hkey2⟩
          rw [mem_clearT]
          exact ⟨ht, hi.survivesClear hl .expiry ht fun hc => hk' (hkey2.symm.trans hc.2)⟩
      · intro k' r' hr' d' hd'
        by_cases hk' : k' = toKeyString kraw
        · subst hk'
          rw [lookAssoc_putAssoc_self] at hr'
          injection hr' with hr'
          subst hr'
          have hdd : some d = some d' := hd'
          injection hdd with hdd
          subst hdd
          exact hbad
        · rw [lookAssoc_putAssoc_ne _ _ hk'] at hr'
          exact hi.durOk k' r' hr' d' hd'

theorem inv_put_riNum {s s' : CacheState} {kraw v rv : JSVal} {q : JNum}
    (h : put s kraw v .undef (.num q) = .ok (s', rv)) (hi : Inv s) : Inv s' := by
  have hbad : badTimeArg (.num q) = false := by
    cases hbb : badTimeArg (.num q) with
    | false => rfl
    | true =>
      rw [put, if_neg (by simp [badTimeArg]), if_pos (by simp [hbb])] at h
      cases h
  rw [put_ok badTimeArg_undef hbad] at h
  cases hl : lookAssoc s.cache (toKeyString kraw) with
  | none =>
    simp only [putDur, putRi, hl, Except.ok.injEq, Prod.mk.injEq] at h
    obtain ⟨h1, h2⟩ := h
    subst h1
    refine ⟨nodup_map_fst_putAssoc _ _ _ hi.keysND, ?_, ?_, ?_, ?_, hi.noCrash⟩
    · exact timersOk_append_fresh hi.tOk kraw .refresh (addDelay_future hbad s.now)
        (periodOf_pos hbad)
    · intro t ht
      rcases List.mem_append.mp ht with h1 | h1
      · obtain ⟨r'', hr'', hh''⟩ := hi.live t h1
        have hkey : toKeyString t.rawKey ≠ toKeyString kraw := by
          intro e
          rw [e, hl] at hr''
          cases hr''
        exact ⟨r'', by rw [lookAssoc_putAssoc_ne _ _ hkey]; exact hr'', hh''⟩
      · simp only [List.mem_singleton] at h1
        subst h1
        exact ⟨⟨v, none, none, some s.nextId⟩, lookAssoc_putAssoc_self .., rfl⟩
    · intro k' r' hr' kd i hh
      by_cases hk' : k' = toKeyString kraw
      · subst hk'
        rw [lookAssoc_putAssoc_self] at hr'
        injection hr' with hr'
        subst hr'
        cases kd with
        | expiry => exact Option.noConfusion hh
        | refresh =>
          simp only [handleOf] at hh
          injection hh with hh
          subst hh
          exact ⟨⟨s.nextId, kraw, .refresh, addDelay s.now q, periodOf q⟩,
            List.mem_append_right _ (List.mem_singleton_self _), rfl, rfl, rfl⟩
      · rw [lookAssoc_putAssoc_ne _ _ hk'] at hr'
        obtain ⟨t, ht, hid, hkd2, hkey2⟩ := hi.reg k' r' hr' kd i hh
        exact ⟨t, List.mem_append_left _ ht, hid, hkd2, hkey2⟩
    · intro k' r' hr' d' hd'
      by_cases hk' : k' = toKeyString kraw
      · subst hk'
        rw [lookAssoc_putAssoc_self] at hr'
        injection hr' with hr'
        subst hr'
        exact Option.noConfusion hd'
      · rw [lookAssoc_putAssoc_ne _ _ hk'] at hr'
        exact hi.durOk k' r' hr' d' hd'
  | some o =>
    simp only [putDur, putRi, hl, Except.ok.injEq, Prod.mk.injEq] at h
    obtain ⟨h1, h2⟩ := h
    subst h1
    refine ⟨nodup_map_fst_putAssoc _ _ _ hi.keysND, ?_, ?_, ?_, ?_, hi.noCrash⟩
    · exact timersOk_append_fresh (timersOk_clearT hi.tOk _) kraw .refresh
        (addDelay_future hbad s.now) (periodOf_pos hbad)
    · intro t ht
      rcases List.mem_append.mp ht with h1 | h1
      · rw [mem_clearT] at h1
        obtain ⟨ht2, hrf⟩ := h1
        obtain ⟨r'', hr'', hh''⟩ := hi.live t ht2
        by_cases hkey : toKeyString t.rawKey = toKeyString kraw
        · rw [hkey, hl, Option.some.injEq] at hr''
          subst hr''
          cases hkd : t.kind with
          | refresh =>
            rw [hkd] at hh''
            simp only [handleOf] at hh''
            exact absurd hh''.symm hrf
          | expiry =>
            rw [hkd] at hh''
            simp only [handleOf] at hh''
            exact ⟨⟨v, o.duration, o.expirationTimeout, some s.nextId⟩,
              by rw [hkey]; exact lookAssoc_putAssoc_self .., hh''⟩
        · exact ⟨r'', by rw [lookAssoc_putAssoc_ne _ _ hkey]; exact hr'', hh''⟩
      · simp only [List.mem_singleton] at h1
        subst h1
        exact ⟨⟨v, o.duration, o.expirationTimeout, some s.nextId⟩,
          lookAssoc_putAssoc_self .., rfl⟩
    · intro k' r' hr' kd i hh
      by_cases hk' : k' = toKeyString kraw
      · subst hk'
        rw [lookAssoc_putAssoc_self] at hr'
        injection hr' with hr'
        subst hr'
        cases kd with
        | refresh =>
          simp only [handleOf] at hh
          injection hh with hh
          subst hh
          exact ⟨⟨s.nextId, kraw, .refresh, addDelay s.now q, periodOf q⟩,
            List.mem_append_right _ (List.mem_singleton_self _), rfl, rfl, rfl⟩
        | expiry =>
          simp only [handleOf] at hh
          obtain ⟨t, ht, hid, hkd2, hkey2⟩ := hi.reg _ o hl .expiry i hh
          refine ⟨t, List.mem_append_left _ ?_, hid, hkd2, hkey2⟩
          rw [mem_clearT]
          exact ⟨ht, hi.survivesClear hl .refresh ht
            fun hc => TKind.noConfusion (hc.1.symm.trans hkd2)⟩
      · rw [lookAssoc_putAssoc_ne _ _ hk'] at hr'
        obtain ⟨t, ht, hid, hkd2, hkey2⟩ := hi.reg k' r' hr' kd i hh
        refine ⟨t, List.mem_append_left _ ?_, hid, hkd2, hkey2⟩
        rw [mem_clearT]
        exact ⟨ht, hi.survivesClear hl .refresh ht fun hc => hk' (hkey2.symm.trans hc.2)⟩
    · intro k' r' hr' d' hd'
      by_cases hk' : k' = toKeyString kraw
      · subst hk'
        rw [lookAssoc_putAssoc_self] at hr'
        injection hr' with hr'
        subst hr'
        exact hi.durOk _ o hl d' hd'
      · rw [lookAssoc_putAssoc_ne _ _ hk'] at hr'
        exact hi.durOk k' r' hr' d' hd'

theorem put_split {s : CacheState} {kraw v : JSVal} {d q : JNum}
    (hd : badTimeArg (.num d) = false) (hq : badTimeArg (.num q) = false) :
    ∃ s1, put s kraw v (.num d) .undef = .ok (s1, v) ∧
      put s kraw v (.num d) (.num q) = put s1 kraw v .undef (.num q) := by
  rw [put_ok hd badTimeArg_undef, put_ok hd hq]
  cases hl : lookAssoc s.cache (toKeyString kraw) with
  | none =>
    refine ⟨_, rfl, ?_⟩
    rw [put_ok badTimeArg_undef hq]
    simp only [putDur, putRi, clearT, hl, lookAssoc_putAssoc_self, putAssoc_putAssoc]
  | some o =>
    refine ⟨_, rfl, ?_⟩
    rw [put_ok badTimeArg_undef hq]
    simp only [putDur, putRi, clearT, hl, lookAssoc_putAssoc_self, putAssoc_putAssoc]

theorem inv_put {s s' : CacheState} {kraw v dur ri rv : JSVal}
    (h : put s kraw v dur ri = .ok (s', rv)) (hi : Inv s) : Inv s' := by
  have hbadri : badTimeArg ri = false := by
    cases hbb : badTimeArg ri with
    | false => rfl
    | true =>
      rw [put] at h
      by_cases hbd : badTimeArg dur = true
      · rw [if_pos (by simp [hbd])] at h
        cases h
      · rw [if_neg (by simp at hbd ⊢; exact hbd), if_pos (by simp [hbb])] at h
        cases h
  cases ri with
  | null => simp [badTimeArg] at hbadri
  | bool b => simp [badTimeArg] at hbadri
  | str st => simp [badTimeArg] at hbadri
  | undef => exact inv_put_durOnly h hi
  | num q =>
    cases dur with
    | undef => exact inv_put_riNum h hi
    | num d =>
      have hbadd : badTimeArg (.num d) = false := by
        cases hbb : badTimeArg (.num d) with
        | false => rfl
        | true =>
          rw [put, if_pos (by simp [hbb])] at h
          cases h
      obtain ⟨s1, h1, h2⟩ := put_split hbadd hbadri
      rw [h2] at h
      exact inv_put_riNum h (inv_put_durOnly h1 hi)
    | null =>
      rw [put, if_pos (by simp [badTimeArg])] at h
      cases h
    | bool b =>
      rw [put, if_pos (by simp [badTimeArg])] at h
      cases h
    | str st =>
      rw [put, if_pos (by simp [badTimeArg])] at h
      cases h

theorem inv_reset {s s' : CacheState} {f : JSVal} (h : resetExpiryOnAccess s f = .ok s')
    (hi : Inv s) : Inv s' := by
  cases f with
  | undef =>
    simp only [resetExpiryOnAccess, Except.ok.injEq] at h
    subst h
    exact ⟨hi.keysND, hi.tOk, hi.live, hi.reg, hi.durOk, hi.noCrash⟩
  | bool b =>
    simp only [resetExpiryOnAccess, Except.ok.injEq] at h
    subst h
    exact ⟨hi.keysND, hi.tOk, hi.live, hi.reg, hi.durOk, hi.noCrash⟩
  | null => exact absurd h (by simp [resetExpiryOnAccess])
  | num n => exact absurd h (by simp [resetExpiryOnAccess])
  | str st => exact absurd h (by simp [resetExpiryOnAccess])

theorem rearm_id (i : Nat) (t : TimerEntry) : (rearm i t).id = t.id := by
  unfold rearm
  split <;> rfl

theorem rearm_rawKey (i : Nat) (t : TimerEntry) : (rearm i t).rawKey = t.rawKey := by
  unfold rearm
  split <;> rfl

theorem rearm_kind (i : Nat) (t : TimerEntry) : (rearm i t).kind = t.kind := by
  unfold rearm
  split <;> rfl

theorem rearm_period (i : Nat) (t : TimerEntry) : (rearm i t).period = t.period := by
  unfold rearm
  split <;> rfl

theorem inv_fire {s s' : CacheState} {i : Nat} (h : fire s i = some s') (hi : Inv s) :
    Inv s' := by
  unfold fire at h
  cases hf : s.timers.find? (fun t => t.id == i) with
  | none =>
    rw [hf] at h
    exact Option.noConfusion h
  | some t =>
    simp only [hf] at h
    have htmem : t ∈ s.timers := List.mem_of_find?_eq_some hf
    have htid : t.id = i := by simpa using List.find?_some hf
    cases hfa : t.fireAt with
    | none =>
      simp only [hfa] at h
      exact Option.noConfusion h
    | some fq =>
      simp only [hfa] at h
      by_cases hqn : fq = s.now
      case neg =>
        rw [if_neg hqn] at h
        exact Option.noConfusion h
      case pos =>
        rw [if_pos hqn] at h
        obtain ⟨r0, hr0, hh0⟩ := hi.live t htmem
        cases hkd : t.kind with
        | expiry =>
          simp only [hkd] at h
          rw [hkd] at hh0
          simp only [handleOf] at hh0
          rw [htid] at hh0
          simp only [hr0, del] at h
          injection h with h
          subst h
          refine ⟨?_, ?_, ?_, ?_, ?_, hi.noCrash⟩
          · rw [map_fst_eraseKey]
            exact hi.keysND.filter _
          · exact timersOk_clearT (timersOk_clearT (timersOk_clearT hi.tOk _) _) _
          · intro t' ht'
            rw [mem_clearT] at ht'
            obtain ⟨ht', hrf'⟩ := ht'
            rw [mem_clearT] at ht'
            obtain ⟨ht', hex'⟩ := ht'
            rw [mem_clearT] at ht'
            obtain ⟨ht', hii⟩ := ht'
            obtain ⟨r'', hr'', hh''⟩ := hi.live t' ht'
            by_cases hkey : toKeyString t'.rawKey = toKeyString t.rawKey
            · rw [hkey, hr0, Option.some.injEq] at hr''
              subst hr''
              cases hkd' : t'.kind with
              | expiry =>
                rw [hkd'] at hh''
                simp only [handleOf] at hh''
                rw [hh0] at hh''
                exact absurd hh''.symm hii
              | refresh =>
                rw [hkd'] at hh''
                simp only [handleOf] at hh''
                exact absurd hh''.symm hrf'
            · exact ⟨r'', by rw [lookAssoc_eraseKey_ne _ hkey]; exact hr'', hh''⟩
          · intro k' r' hr' kd i' hh'
            have hk'ne : k' ≠ toKeyString t.rawKey := by
              intro e
              rw [e, lookAssoc_eraseKey_self] at hr'
              cases hr'
            rw [lookAssoc_eraseKey_ne _ hk'ne] at hr'
            obtain ⟨t2, ht2, hid2, hkd2, hkey2⟩ := hi.reg k' r' hr' kd i' hh'
            refine ⟨t2, ?_, hid2, hkd2, hkey2⟩
            rw [mem_clearT]
            refine ⟨?_, hi.survivesClear hr0 .refresh ht2 (fun hc => hk'ne (hkey2.symm.trans hc.2))⟩
            rw [mem_clearT]
            refine ⟨?_, hi.survivesClear hr0 .expiry ht2 (fun hc => hk'ne (hkey2.symm.trans hc.2))⟩
            rw [mem_clearT]
            refine ⟨ht2, ?_⟩
            rw [← hh0]
            exact hi.survivesClear hr0 .expiry ht2 (fun hc => hk'ne (hkey2.symm.trans hc.2))
          · intro k' r' hr' d' hd'
            have hk'ne : k' ≠ toKeyString t.rawKey := by
              intro e
              rw [e, lookAssoc_eraseKey_self] at hr'
              cases hr'
            rw [lookAssoc_eraseKey_ne _ hk'ne] at hr'
            exact hi.durOk k' r' hr' d' hd'
        | refresh =>
          simp only [hkd] at h
          simp only [hr0] at h
          injection h with h
          subst h
          have hidmap : (s.timers.map (rearm i)).map TimerEntry.id = s.timers.map TimerEntry.id := by
            rw [List.map_map]
            exact List.map_congr_left fun t0 _ => rearm_id i t0
          refine ⟨hi.keysND, ⟨?_, ?_, ?_, ?_⟩, ?_, ?_, hi.durOk, hi.noCrash⟩
          · rw [hidmap]
            exact hi.tOk.1
          · intro t' ht'
            rw [List.mem_map] at ht'
            obtain ⟨t0, ht0, rfl⟩ := ht'
            rw [rearm_id]
            exact hi.tOk.2.1 t0 ht0
          · intro t' ht' q' hq'
            rw [List.mem_map] at ht'
            obtain ⟨t0, ht0, rfl⟩ := ht'
            unfold rearm at hq'
            by_cases hti : t0.id = i
            · rw [if_pos hti] at hq'
              have ht0t : t0 = t := hi.idInj t0 ht0 t htmem (by rw [hti, htid])
              subst ht0t
              rw [hfa] at hq'
              cases hper : t0.period with
              | some p =>
                rw [hper] at hq'
                have hq'' : some (fq + p) = some q' := hq'
                injection hq'' with hq''
                have hp := hi.tOk.2.2.2 t0 htmem p hper
                show s.now ≤ q'
                omega
              | none =>
                rw [hper] at hq'
                have hq'' : some fq = some q' := hq'
                injection hq'' with hq''
                show s.now ≤ q'
                omega
            · rw [if_neg hti] at hq'
              exact hi.tOk.2.2.1 t0 ht0 q' hq'
          · intro t' ht' p' hp'
            rw [List.mem_map] at ht'
            obtain ⟨t0, ht0, rfl⟩ := ht'
            rw [rearm_period] at hp'
            exact hi.tOk.2.2.2 t0 ht0 p' hp'
          · intro t' ht'
            rw [List.mem_map] at ht'
            obtain ⟨t0, ht0, rfl⟩ := ht'
            obtain ⟨r'', hr'', hh''⟩ := hi.live t0 ht0
            rw [rearm_rawKey, rearm_kind, rearm_id]
            exact ⟨r'', hr'', hh''⟩
          · intro k' r' hr' kd i' hh'
            obtain ⟨t2, ht2, hid2, hkd2, hkey2⟩ := hi.reg k' r' hr' kd i' hh'
            exact ⟨rearm i t2, List.mem_map_of_mem _ ht2,
              (rearm_id i t2).trans hid2, (rearm_kind i t2).trans hkd2,
              by rw [rearm_rawKey]; exact hkey2⟩

theorem inv_advance {s s' : CacheState} {t : Int} (h : advance s t = some s') (hi : Inv s) :
    Inv s' := by
  unfold advance at h
  by_cases hc : (decide (s.now ≤ t) &&
      (s.timers.all fun tm => match tm.fireAt with
        | some q => decide (t ≤ q)
        | none => true)) = true
  · rw [if_pos hc, Option.some.injEq] at h
    subst h
    rw [Bool.and_eq_true, List.all_eq_true] at hc
    refine ⟨hi.keysND, ⟨hi.tOk.1, hi.tOk.2.1, ?_, hi.tOk.2.2.2⟩, hi.live, hi.reg, hi.durOk,
      hi.noCrash⟩
    intro tm htm q hq
    have := hc.2 tm htm
    rw [hq] at this
    simpa using this
  · rw [if_neg hc] at h
    cases h

theorem inv_execAct {s s' : CacheState} {a : Act} (h : execAct s a = some s') (hi : Inv s) :
    Inv s' := by
  cases a with
  | doPut kraw v dur ri =>
    simp only [execAct] at h
    cases hp : put s kraw v dur ri with
    | ok p =>
      simp only [hp] at h
      injection h with h
      subst h
      exact inv_put (show put s kraw v dur ri = .ok (p.1, p.2) from hp) hi
    | error e =>
      simp only [hp] at h
      injection h with h
      subst h
      exact hi
  | doGet kraw =>
    simp only [execAct] at h
    injection h with h
    subst h
    exact inv_get hi kraw
  | doDel kraw =>
    simp only [execAct] at h
    injection h with h
    subst h
    exact inv_del hi kraw
  | doClear =>
    simp only [execAct] at h
    injection h with h
    subst h
    exact inv_clear hi
  | doReset f =>
    simp only [execAct] at h
    cases hr : resetExpiryOnAccess s f with
    | ok s1 =>
      simp only [hr] at h
      injection h with h
      subst h
      exact inv_reset hr hi
    | error e =>
      simp only [hr] at h
      injection h with h
      subst h
      exact hi
  | doFire i =>
    simp only [execAct] at h
    exact inv_fire h hi
  | doAdvance t =>
    simp only [execAct] at h
    exact inv_advance h hi

theorem inv_run {s s' : CacheState} {tr : List Act} (h : run s tr = some s') (hi : Inv s) :
    Inv s' := by
  induction tr generalizing s with
  | nil =>
    simp only [run] at h
    injection h with h
    subst h
    exact hi
  | cons a tr ih =>
    simp only [run] at h
    cases he : execAct s a with
    | none =>
      rw [he] at h
      exact Option.noConfusion h
    | some s1 =>
      simp only [he] at h
      exact ih h (inv_execAct he hi)

/-- Every reachable state satisfies the invariant. -/
theorem inv_reachable {s : CacheState} (h : Reachable s) : Inv s := by
  obtain ⟨tr, htr⟩ := h
  exact inv_run htr inv_initState

theorem put_ok_flags {s s' : CacheState} {kraw v dur ri rv : JSVal}
    (h : put s kraw v dur ri = .ok (s', rv)) :
    badTimeArg dur = false ∧ badTimeArg ri = false := by
  constructor
  · cases hbb : badTimeArg dur with
    | false => rfl
    | true =>
      rw [put, if_pos (by simp [hbb])] at h
      cases h
  · cases hbb : badTimeArg ri with
    | false => rfl
    | true =>
      by_cases hbd : badTimeArg dur = true
      · rw [put, if_pos (by simp [hbd])] at h
        cases h
      · rw [put, if_neg (by simpa using hbd), if_pos (by simp [hbb])] at h
        cases h

theorem putDur_cache {s : CacheState} {kraw : JSVal} {old : Option Record} {r : Record}
    (x : JSVal) : (putDur s kraw old r x).1.cache = s.cache := by
  cases x <;> cases old <;> rfl

theorem putDur_events {s : CacheState} {kraw : JSVal} {old : Option Record} {r : Record}
    (x : JSVal) : (putDur s kraw old r x).1.events = s.events := by
  cases x <;> cases old <;> rfl

theorem putRi_cache {s : CacheState} {kraw : JSVal} {old : Option Record} {r : Record}
    (x : JSVal) : (putRi s kraw old r x).1.cache = s.cache := by
  cases x <;> cases old <;> rfl

theorem putRi_events {s : CacheState} {kraw : JSVal} {old : Option Record} {r : Record}
    (x : JSVal) : (putRi s kraw old r x).1.events = s.events := by
  cases x <;> cases old <;> rfl

theorem putDur_value {s : CacheState} {kraw : JSVal} {old : Option Record} {r : Record}
    (x : JSVal) : (putDur s kraw old r x).2.value = r.value := by
  cases x <;> cases old <;> rfl

theorem putRi_value {s : CacheState} {kraw : JSVal} {old : Option Record} {r : Record}
    (x : JSVal) : (putRi s kraw old r x).2.value = r.value := by
  cases x <;> cases old <;> rfl

/-- A successful `put` returns the written value, only reassigns its own
key in the map (storing the written value there), and emits nothing. -/
theorem put_shape {s s' : CacheState} {kraw v dur ri rv : JSVal}
    (h : put s kraw v dur ri = .ok (s', rv)) :
    (∃ R, s'.cache = putAssoc s.cache (toKeyString kraw) R ∧ R.value = v) ∧
      s'.events = s.events ∧ rv = v := by
  obtain ⟨hd, hri⟩ := put_ok_flags h
  rw [put_ok hd hri] at h
  simp only [Except.ok.injEq, Prod.mk.injEq] at h
  obtain ⟨h1, h2⟩ := h
  subst h1
  simp only [putRi_cache, putDur_cache, putRi_events, putDur_events]
  refine ⟨⟨_, rfl, ?_⟩, trivial, h2.symm⟩
  rw [putRi_value, putDur_value]
  cases lookAssoc s.cache (toKeyString kraw) <;> rfl

theorem put_ids_durOnly {s s' : CacheState} {kraw v dur rv : JSVal}
    (h : put s kraw v dur .undef = .ok (s', rv)) :
    s.nextId ≤ s'.nextId ∧
      ∀ t' ∈ s'.timers, (∃ t ∈ s.timers, t'.id = t.id) ∨ s.nextId ≤ t'.id := by
  obtain ⟨hd, -⟩ := put_ok_flags h
  cases dur with
  | null => simp [badTimeArg] at hd
  | bool b => simp [badTimeArg] at hd
  | str st => simp [badTimeArg] at hd
  | undef =>
    rw [put_ok badTimeArg_undef badTimeArg_undef] at h
    simp only [putDur, putRi, Except.ok.injEq, Prod.mk.injEq] at h
    obtain ⟨h1, h2⟩ := h
    subst h1
    exact ⟨le_refl _, fun t' ht' => .inl ⟨t', ht', rfl⟩⟩
  | num d =>
    rw [put_ok hd badTimeArg_undef] at h
    cases hl : lookAssoc s.cache (toKeyString kraw) with
    | none =>
      simp only [putDur, putRi, hl, Except.ok.injEq, Prod.mk.injEq] at h
      obtain ⟨h1, h2⟩ := h
      subst h1
      refine ⟨Nat.le_succ _, ?_⟩
      intro t' ht'
      rcases List.mem_append.mp ht' with h1 | h1
      · exact .inl ⟨t', h1, rfl⟩
      · simp only [List.mem_singleton] at h1
        subst h1
        exact .inr (le_refl _)
    | some o =>
      simp only [putDur, putRi, hl, Except.ok.injEq, Prod.mk.injEq] at h
      obtain ⟨h1, h2⟩ := h
      subst h1
      refine ⟨Nat.le_succ _, ?_⟩
      intro t' ht'
      rcases List.mem_append.mp ht' with h1 | h1
      · exact .inl ⟨t', (mem_clearT.mp h1).1, rfl⟩
      · simp only [List.mem_singleton] at h1
        subst h1
        exact .inr (le_refl _)

theorem put_ids_riNum {s s' : CacheState} {kraw v rv : JSVal} {q : JNum}
    (h : put s kraw v .undef (.num q) = .ok (s', rv)) :
    s.nextId ≤ s'.nextId ∧
      ∀ t' ∈ s'.timers, (∃ t ∈ s.timers, t'.id = t.id) ∨ s.nextId ≤ t'.id := by
  obtain ⟨-, hq⟩ := put_ok_flags h
  rw [put_ok badTimeArg_undef hq] at h
  cases hl : lookAssoc s.cache (toKeyString kraw) with
  | none =>
    simp only [putDur, putRi, hl, Except.ok.injEq, Prod.mk.injEq] at h
    obtain ⟨h1, h2⟩ := h
    subst h1
    refine ⟨Nat.le_succ _, ?_⟩
    intro t' ht'
    rcases List.mem_append.mp ht' with h1 | h1
    · exact .inl ⟨t', h1, rfl⟩
    · simp only [List.mem_singleton] at h1
      subst h1
      exact .inr (le_refl _)
  | some o =>
    simp only [putDur, putRi, hl, Except.ok.injEq, Prod.mk.injEq] at h
    obtain ⟨h1, h2⟩ := h
    subst h1
    refine ⟨Nat.le_succ _, ?_⟩
    intro t' ht'
    rcases List.mem_append.mp ht' with h1 | h1
    · exact .inl ⟨t', (mem_clearT.mp h1).1, rfl⟩
    · simp only [List.mem_singleton] at h1
      subst h1
      exact .inr (le_refl _)

theorem put_ids {s s' : CacheState} {kraw v dur ri rv : JSVal}
    (h : put s kraw v dur ri = .ok (s', rv)) :
    s.nextId ≤ s'.nextId ∧
      ∀ t' ∈ s'.timers, (∃ t ∈ s.timers, t'.id = t.id) ∨ s.nextId ≤ t'.id := by
  obtain ⟨hd, hq⟩ := put_ok_flags h
  cases ri with
  | null => simp [badTimeArg] at hq
  | bool b => simp [badTimeArg] at hq
  | str st => simp [badTimeArg] at hq
  | undef => exact put_ids_durOnly h
  | num q =>
    cases dur with
    | null => simp [badTimeArg] at hd
    | bool b => simp [badTimeArg] at hd
    | str st => simp [badTimeArg] at hd
    | undef => exact put_ids_riNum h
    | num d =>
      obtain ⟨s1, hsp1, hsp2⟩ := put_split hd hq
      rw [hsp2] at h
      obtain ⟨hle1, hmem1⟩ := put_ids_durOnly hsp1
      obtain ⟨hle2, hmem2⟩ := put_ids_riNum h
      refine ⟨hle1.trans hle2, ?_⟩
      intro t' ht'
      rcases hmem2 t' ht' with ⟨t1, ht1, heq⟩ | hge
      · rcases hmem1 t1 ht1 with ⟨t0, ht0, heq0⟩ | hge1
        · exact .inl ⟨t0, ht0, heq.trans heq0⟩
        · exact .inr (heq ▸ hge1)
      · exact .inr (hle1.trans hge)

/-- One step only removes pending timers or creates fresh-handle ones, and
never lowers the handle counter. -/
theorem step_ids {s s' : CacheState} {a : Act} (h : execAct s a = some s') :
    s.nextId ≤ s'.nextId ∧
      ∀ t' ∈ s'.timers, (∃ t ∈ s.timers, t'.id = t.id) ∨ s.nextId ≤ t'.id := by
  cases a with
  | doPut kraw v dur ri =>
    simp only [execAct] at h
    cases hp : put s kraw v dur ri with
    | ok p =>
      simp only [hp] at h
      injection h with h
      subst h
      exact put_ids (show put s kraw v dur ri = .ok (p.1, p.2) from hp)
    | error e =>
      simp only [hp] at h
      injection h with h
      subst h
      exact ⟨le_refl _, fun t' ht' => .inl ⟨t', ht', rfl⟩⟩
  | doGet kraw =>
    simp only [execAct] at h
    injection h with h
    subst h
    cases hl : lookAssoc s.cache (toKeyString kraw) with
    | none =>
      simp only [get, hl]
      exact ⟨le_refl _, fun t' ht' => .inl ⟨t', ht', rfl⟩⟩
    | some r =>
      cases hd : r.duration with
      | none =>
        simp only [get, hl, hd]
        exact ⟨le_refl _, fun t' ht' => .inl ⟨t', ht', rfl⟩⟩
      | some d =>
        cases hflag : s.resetExpiryOnAccess with
        | false =>
          simp only [get, hl, hd, hflag]
          exact ⟨le_refl _, fun t' ht' => .inl ⟨t', ht', rfl⟩⟩
        | true =>
          simp only [get, hl, hd, hflag]
          refine ⟨Nat.le_succ _, ?_⟩
          intro t' ht'
          rcases List.mem_append.mp ht' with h1 | h1
          · exact .inl ⟨t', (mem_clearT.mp h1).1, rfl⟩
          · simp only [List.mem_singleton] at h1
            subst h1
            exact .inr (le_refl _)
  | doDel kraw =>
    simp only [execAct] at h
    injection h with h
    subst h
    cases hl : lookAssoc s.cache (toKeyString kraw) with
    | none =>
      simp only [del, hl]
      exact ⟨le_refl _, fun t' ht' => .inl ⟨t', ht', rfl⟩⟩
    | some r =>
      simp only [del, hl]
      refine ⟨le_refl _, ?_⟩
      intro t' ht'
      exact .inl ⟨t', (mem_clearT.mp (mem_clearT.mp ht').1).1, rfl⟩
  | doClear =>
    simp only [execAct] at h
    injection h with h
    subst h
    refine ⟨le_refl _, ?_⟩
    intro t' ht'
    simp only [clear, List.mem_filter] at ht'
    exact .inl ⟨t', ht'.1, rfl⟩
  | doReset f =>
    simp only [execAct] at h
    cases hr : resetExpiryOnAccess s f with
    | ok s1 =>
      simp only [hr] at h
      injection h with h
      subst h
      cases f with
      | undef =>
        simp only [resetExpiryOnAccess, Except.ok.injEq] at hr
        subst hr
        exact ⟨le_refl _, fun t' ht' => .inl ⟨t', ht', rfl⟩⟩
      | bool b =>
        simp only [resetExpiryOnAccess, Except.ok.injEq] at hr
        subst hr
        exact ⟨le_refl _, fun t' ht' => .inl ⟨t', ht', rfl⟩⟩
      | null => exact absurd hr (by simp [resetExpiryOnAccess])
      | num n => exact absurd hr (by simp [resetExpiryOnAccess])
      | str st => exact absurd hr (by simp [resetExpiryOnAccess])
    | error e =>
      simp only [hr] at h
      injection h with h
      subst h
      exact ⟨le_refl _, fun t' ht' => .inl ⟨t', ht', rfl⟩⟩
  | doFire i =>
    simp only [execAct] at h
    unfold fire at h
    cases hf : s.timers.find? (fun t => t.id == i) with
    | none =>
      rw [hf] at h
      exact Option.noConfusion h
    | some t =>
      simp only [hf] at h
      cases hfa : t.fireAt with
      | none =>
        simp only [hfa] at h
        exact Option.noConfusion h
      | some fq =>
        simp only [hfa] at h
        by_cases hqn : fq = s.now
        case neg =>
          rw [if_neg hqn] at h
          exact Option.noConfusion h
        case pos =>
          rw [if_pos hqn] at h
          cases hkd : t.kind with
          | expiry =>
            simp only [hkd] at h
            cases hr0 : lookAssoc s.cache (toKeyString t.rawKey) with
            | none =>
              simp only [hr0] at h
              injection h with h
              subst h
              refine ⟨le_refl _, ?_⟩
              intro t' ht'
              have ht2 : t' ∈ clearT s.timers (some i) := ht'
              exact .inl ⟨t', (mem_clearT.mp ht2).1, rfl⟩
            | some r =>
              simp only [hr0, del] at h
              injection h with h
              subst h
              refine ⟨le_refl _, ?_⟩
              intro t' ht'
              have ht2 : t' ∈
                  clearT (clearT (clearT s.timers (some i)) r.expirationTimeout)
                    r.refreshInterval := ht'
              exact .inl ⟨t', (mem_clearT.mp (mem_clearT.mp (mem_clearT.mp ht2).1).1).1, rfl⟩
          | refresh =>
            simp only [hkd] at h
            cases hr0 : lookAssoc s.cache (toKeyString t.rawKey) with
            | none =>
              simp only [hr0] at h
              injection h with h
              subst h
              exact ⟨le_refl _, fun t' ht' => .inl ⟨t', ht', rfl⟩⟩
            | some r =>
              simp only [hr0] at h
              injection h with h
              subst h
              refine ⟨le_refl _, ?_⟩
              intro t' ht'
              rw [List.mem_map] at ht'
              obtain ⟨t0, ht0, rfl⟩ := ht'
              exact .inl ⟨t0, ht0, rearm_id i t0⟩
  | doAdvance tt =>
    simp only [execAct] at h
    unfold advance at h
    by_cases hc : (decide (s.now ≤ tt) &&
        (s.timers.all fun tm => match tm.fireAt with
          | some q => decide (tt ≤ q)
          | none => true)) = true
    · rw [if_pos hc, Option.some.injEq] at h
      subst h
      exact ⟨le_refl _, fun t' ht' => .inl ⟨t', ht', rfl⟩⟩
    · rw [if_neg hc] at h
      exact Option.noConfusion h

/-- A handle that is below the counter and no longer pending never becomes
pending again. -/
theorem dead_run {s s' : CacheState} {tr : List Act} (h : run s tr = some s') {i : Nat}
    (hlt : i < s.nextId) (hdead : ∀ t ∈ s.timers, t.id ≠ i) :
    ∀ t ∈ s'.timers, t.id ≠ i := by
  induction tr generalizing s with
  | nil =>
    simp only [run] at h
    injection h with h
    subst h
    exact hdead
  | cons a tr ih =>
    simp only [run] at h
    cases he : execAct s a with
    | none =>
      rw [he] at h
      exact Option.noConfusion h
    | some s1 =>
      simp only [he] at h
      obtain ⟨hle, hmem⟩ := step_ids he
      refine ih h (Nat.lt_of_lt_of_le hlt hle) ?_
      intro t ht
      rcases hmem t ht with ⟨t0, ht0, heq⟩ | hge
      · rw [heq]
        exact hdead t0 ht0
      · omega

theorem filter_append_single {α : Type} (l : List α) (p : α → Bool) (e : α)
    (he : p e = false) : (l ++ [e]).filter p = l.filter p := by
  simp [List.filter_append, List.filter_cons, he]

/-- One step of a state where `k` is absent, other than a `put` to `k`,
keeps `k` absent and emits no event for `k`. -/
theorem gone_step {s s' : CacheState} {a : Act} (hi : Inv s) (h : execAct s a = some s')
    {k : String} (hk : lookAssoc s.cache k = none)
    (hnp : ∀ kraw v d ri, a = .doPut kraw v d ri → toKeyString kraw ≠ k) :
    lookAssoc s'.cache k = none ∧ eventsFor s' k = eventsFor s k := by
  cases a with
  | doPut kraw v dur ri =>
    simp only [execAct] at h
    cases hp : put s kraw v dur ri with
    | ok p =>
      simp only [hp] at h
      injection h with h
      subst h
      obtain ⟨⟨R, hc, -⟩, hev, -⟩ :=
        put_shape (show put s kraw v dur ri = .ok (p.1, p.2) from hp)
      constructor
      · rw [hc, lookAssoc_putAssoc_ne _ _ (Ne.symm (hnp kraw v dur ri rfl))]
        exact hk
      · unfold eventsFor
        rw [hev]
    | error e =>
      simp only [hp] at h
      injection h with h
      subst h
      exact ⟨hk, rfl⟩
  | doGet kraw =>
    simp only [execAct] at h
    injection h with h
    subst h
    cases hl : lookAssoc s.cache (toKeyString kraw) with
    | none =>
      simp only [get, hl]
      exact ⟨hk, trivial⟩
    | some r =>
      have hkne : k ≠ toKeyString kraw := by
        intro e
        rw [← e, hk] at hl
        cases hl
      cases hd : r.duration with
      | none =>
        simp only [get, hl, hd]
        exact ⟨hk, trivial⟩
      | some d =>
        cases hflag : s.resetExpiryOnAccess with
        | false =>
          simp only [get, hl, hd, hflag]
          exact ⟨hk, trivial⟩
        | true =>
          simp only [get, hl, hd, hflag]
          constructor
          · rw [lookAssoc_putAssoc_ne _ _ hkne]
            exact hk
          · rfl
  | doDel kraw =>
    simp only [execAct] at h
    injection h with h
    subst h
    cases hl : lookAssoc s.cache (toKeyString kraw) with
    | none =>
      simp only [del, hl]
      exact ⟨hk, trivial⟩
    | some r =>
      simp only [del, hl]
      constructor
      · by_cases hkne : k = toKeyString kraw
        · rw [hkne]
          exact lookAssoc_eraseKey_self ..
        · rw [lookAssoc_eraseKey_ne _ hkne]
          exact hk
      · rfl
  | doClear =>
    simp only [execAct] at h
    injection h with h
    subst h
    exact ⟨rfl, rfl⟩
  | doReset f =>
    simp only [execAct] at h
    cases hr : resetExpiryOnAccess s f with
    | ok s1 =>
      simp only [hr] at h
      injection h with h
      subst h
      cases f with
      | undef =>
        simp only [resetExpiryOnAccess, Except.ok.injEq] at hr
        subst hr
        exact ⟨hk, rfl⟩
      | bool b =>
        simp only [resetExpiryOnAccess, Except.ok.injEq] at hr
        subst hr
        exact ⟨hk, rfl⟩
      | null => exact absurd hr (by simp [resetExpiryOnAccess])
      | num n => exact absurd hr (by simp [resetExpiryOnAccess])
      | str st => exact absurd hr (by simp [resetExpiryOnAccess])
    | error e =>
      simp only [hr] at h
      injection h with h
      subst h
      exact ⟨hk, rfl⟩
  | doFire i =>
    simp only [execAct] at h
    unfold fire at h
    cases hf : s.timers.find? (fun t => t.id == i) with
    | none =>
      rw [hf] at h
      exact Option.noConfusion h
    | some t =>
      simp only [hf] at h
      have htmem : t ∈ s.timers := List.mem_of_find?_eq_some hf
      obtain ⟨r0, hr0, hh0⟩ := hi.live t htmem
      have hkne : toKeyString t.rawKey ≠ k := by
        intro e
        rw [e, hk] at hr0
        cases hr0
      have hkeyb : (toKeyString (Event.expiry t.rawKey r0.value).keyOf == k) = false := by
        simp [Event.keyOf, hkne]
      have hkeyb' : (toKeyString (Event.refresh t.rawKey r0.value).keyOf == k) = false := by
        simp [Event.keyOf, hkne]
      cases hfa : t.fireAt with
      | none =>
        simp only [hfa] at h
        exact Option.noConfusion h
      | some fq =>
        simp only [hfa] at h
        by_cases hqn : fq = s.now
        case neg =>
          rw [if_neg hqn] at h
          exact Option.noConfusion h
        case pos =>
          rw [if_pos hqn] at h
          cases hkd : t.kind with
          | expiry =>
            simp only [hkd] at h
            simp only [hr0, del] at h
            injection h with h
            subst h
            constructor
            · by_cases hke : k = toKeyString t.rawKey
              · exact absurd hke.symm hkne
              · rw [lookAssoc_eraseKey_ne _ hke]
                exact hk
            · unfold eventsFor
              exact filter_append_single _ _ _ hkeyb
          | refresh =>
            simp only [hkd] at h
            simp only [hr0] at h
            injection h with h
            subst h
            refine ⟨hk, ?_⟩
            unfold eventsFor
            exact filter_append_single _ _ _ hkeyb'
  | doAdvance tt =>
    simp only [execAct] at h
    unfold advance at h
    by_cases hc : (decide (s.now ≤ tt) &&
        (s.timers.all fun tm => match tm.fireAt with
          | some q => decide (tt ≤ q)
          | none => true)) = true
    · rw [if_pos hc, Option.some.injEq] at h
      subst h
      exact ⟨hk, rfl⟩
    · rw [if_neg hc] at h
      exact Option.noConfusion h

/-- C3's core: once `k` is absent, a trace containing no `put` to `k`
keeps `k` absent and emits no event for `k`. -/
theorem gone_run {s s' : CacheState} {tr : List Act} (hi : Inv s) (h : run s tr = some s')
    {k : String} (hk : lookAssoc s.cache k = none)
    (hnp : ∀ a ∈ tr, ∀ kraw v d ri, a = Act.doPut kraw v d ri → toKeyString kraw ≠ k) :
    lookAssoc s'.cache k = none ∧ eventsFor s' k = eventsFor s k := by
  induction tr generalizing s with
  | nil =>
    simp only [run] at h
    injection h with h
    subst h
    exact ⟨hk, rfl⟩
  | cons a tr ih =>
    simp only [run] at h
    cases he : execAct s a with
    | none =>
      rw [he] at h
      exact Option.noConfusion h
    | some s1 =>
      simp only [he] at h
      obtain ⟨hk1, hev1⟩ := gone_step hi he hk (fun kraw v d ri ha => hnp a (by simp) kraw v d ri ha)
      obtain ⟨hk2, hev2⟩ := ih (inv_execAct he hi) h hk1
        (fun a' ha' kraw v d ri he' => hnp a' (List.mem_cons_of_mem _ ha') kraw v d ri he')
      exact ⟨hk2, hev2.trans hev1⟩

/-- With no array-index-like key present, `Object.keys` is insertion order. -/
theorem objectKeys_no_idx (c : List (String × Record))
    (h : ∀ k ∈ c.map Prod.fst, isArrayIndex k = none) : objectKeys c = c.map Prod.fst := by
  unfold objectKeys
  have h1 : ((c.map Prod.fst).filterMap fun k => (isArrayIndex k).map fun n => (n, k)) = [] := by
    rw [List.filterMap_eq_nil_iff]
    intro k hk
    rw [h k hk]
    rfl
  have h2 : ((c.map Prod.fst).filter fun k => (isArrayIndex k).isNone) = c.map Prod.fst := by
    rw [List.filter_eq_self]
    intro k hk
    rw [h k hk]
    rfl
  rw [h1, h2]
  rfl

/-- `Object.keys` depends only on the key sequence. -/
theorem objectKeys_eq_of_map_fst {c1 c2 : List (String × Record)}
    (h : c1.map Prod.fst = c2.map Prod.fst) : objectKeys c1 = objectKeys c2 := by
  unfold objectKeys
  rw [h]

/-- `get` on a present key returns the record's value in every branch. -/
theorem get_val {s : CacheState} {kraw : JSVal} {r : Record}
    (hl : lookAssoc s.cache (toKeyString kraw) = some r) : (get s kraw).2 = r.value := by
  simp only [get, hl]
  cases hd : r.duration with
  | none => rfl
  | some d =>
    cases hflag : s.resetExpiryOnAccess with
    | false => rfl
    | true => rfl

/-- With unique handles, `find?` locates exactly the pending timer. -/
theorem find_timer {s : CacheState} (hi : Inv s) {t : TimerEntry} (ht : t ∈ s.timers)
    {i : Nat} (hid : t.id = i) : s.timers.find? (fun t' => t'.id == i) = some t := by
  cases hf : s.timers.find? (fun t' => t'.id == i) with
  | none =>
    have := List.find?_eq_none.mp hf t ht
    simp [hid] at this
  | some t2 =>
    have h1 : t2 ∈ s.timers := List.mem_of_find?_eq_some hf
    have h2 : t2.id = i := by simpa using List.find?_some hf
    rw [hi.idInj t2 h1 t ht (by rw [hid, h2])]

theorem del_absent {s : CacheState} {kraw : JSVal}
    (hl : lookAssoc s.cache (toKeyString kraw) = none) : del s kraw = (s, false) := by
  simp only [del, hl]

/-- C4 counterexample: the claim says a supplied duration that is not a
*finite* positive number fails with an error before any mutation; but the
code's check `typeof duration !== 'number' || isNaN(duration) ||
duration <= 0` accepts `Infinity`, so `put('k', 'v', Infinity)` succeeds,
stores the entry (size becomes 1) and returns the value. -/
theorem C4_counterexample :
    (put initState (.str "k") (.str "v") (.num .pinf) .undef).toOption.map
      (fun p => (size p.1, p.2)) = some (1, .str "v") := by decide

/-- C4 amended: if `duration` is supplied and is not a number, is NaN, or
is `<= 0` (a check that accepts `Infinity`), `put` fails with the
InvalidArgument error `"Expiration time must be a positive number"` before
any mutation, leaving the state exactly as it was; the same for
`refreshInterval` with its error message; otherwise `put` succeeds and
returns the written value.  The final group pins down the check: NaN,
-Infinity, non-numbers and non-positive finite values are rejected,
`undefined` (omitted) and `+Infinity` are accepted. -/
theorem C4_validation (s : CacheState) (kraw v dur ri : JSVal) :
    (badTimeArg dur = true →
      put s kraw v dur ri = .error "Expiration time must be a positive number" ∧
      execAct s (.doPut kraw v dur ri) = some s) ∧
    (badTimeArg dur = false → badTimeArg ri = true →
      put s kraw v dur ri = .error "Refresh time must be a positive number" ∧
      execAct s (.doPut kraw v dur ri) = some s) ∧
    (badTimeArg dur = false → badTimeArg ri = false →
      ∃ s', put s kraw v dur ri = .ok (s', v)) ∧
    (badTimeArg JSVal.undef = false ∧ badTimeArg (.num .pinf) = false ∧
      badTimeArg (.num .nan) = true ∧ badTimeArg (.num .ninf) = true ∧
      (∀ i : Int, badTimeArg (.num (.fin i)) = decide (i ≤ 0)) ∧
      (∀ b, badTimeArg (.bool b) = true) ∧ (∀ st, badTimeArg (.str st) = true) ∧
      badTimeArg JSVal.null = true ∧ badTimeArg JSVal.undef = false) := by
  refine ⟨?_, ?_, ?_, ?_⟩
  · intro hb
    have hput : put s kraw v dur ri = .error "Expiration time must be a positive number" := by
      rw [put, if_pos (by simp [hb])]
    refine ⟨hput, ?_⟩
    simp only [execAct, hput]
  · intro hd hb
    have hput : put s kraw v dur ri = .error "Refresh time must be a positive number" := by
      rw [put, if_neg (by simp [hd]), if_pos (by simp [hb])]
    refine ⟨hput, ?_⟩
    simp only [execAct, hput]
  · intro hd hri
    rw [put_ok hd hri]
    exact ⟨_, rfl⟩
  · refine ⟨rfl, rfl, rfl, rfl, ?_, ?_, ?_, rfl, rfl⟩
    · intro i
      simp [badTimeArg, jsIsNaN, jleZero]
    · intro b
      rfl
    · intro st
      rfl

theorem C4_validation_witness :
    (put initState (.str "k") (.str "v") (.str "foo") .undef =
        .error "Expiration time must be a positive number" ∧
      execAct initState (.doPut (.str "k") (.str "v") (.str "foo") .undef) = some initState) ∧
    (put initState (.str "k") (.str "v") .undef (.num (.fin 0)) =
        .error "Refresh time must be a positive number" ∧
      execAct initState (.doPut (.str "k") (.str "v") .undef (.num (.fin 0))) =
        some initState) ∧
    ∃ s', put initState (.str "k") (.str "v") (.num (.fin 5)) .undef = .ok (s', .str "v") :=
  ⟨(C4_validation initState (.str "k") (.str "v") (.str "foo") .undef).1 (by decide),
   (C4_validation initState (.str "k") (.str "v") .undef (.num (.fin 0))).2.1 (by decide)
     (by decide),
   (C4_validation initState (.str "k") (.str "v") (.num (.fin 5)) .undef).2.2.1 (by decide)
     (by decide)⟩

/-- C5 counterexample: the claim includes `null` among the values whose
stored result is distinguishable from the absent marker; but `get` returns
`null` for an absent key, and after `put('k', null)` it returns the same
`null` — the two are indistinguishable. -/
theorem C5_counterexample :
    (put initState (.str "k") .null .undef .undef).toOption.map
      (fun p => ((get p.1 (.str "k")).2, (get initState (.str "k")).2)) =
    some (JSVal.null, JSVal.null) := by decide

/-- C5 amended: `put` then immediate `get` returns exactly the value
written — including falsy values such as `false`, `0` and the empty
string — and for every value *other than `null`* the result is
distinguishable from the `null` absent marker; a stored `null` round-trips
exactly but coincides with the absent marker.  `get` on an absent key
always returns `null` (and never throws — it is a total function that
leaves the state unchanged). -/
theorem C5_roundtrip (s s' : CacheState) (kraw v rv : JSVal)
    (hput : put s kraw v .undef .undef = .ok (s', rv)) :
    rv = v ∧ (get s' kraw).2 = v ∧
    (lookAssoc s.cache (toKeyString kraw) = none → get s kraw = (s, .null)) ∧
    (v ≠ .null → (get s' kraw).2 ≠ .null) := by
  obtain ⟨⟨R, hc, hRv⟩, -, hrv⟩ := put_shape hput
  have hl2 : lookAssoc s'.cache (toKeyString kraw) = some R := by
    rw [hc]
    exact lookAssoc_putAssoc_self ..
  have hv : (get s' kraw).2 = v := (get_val hl2).trans hRv
  refine ⟨hrv, hv, ?_, fun hne => hv ▸ hne⟩
  intro hnone
  simp only [get, hnone]

theorem C5_roundtrip_witness :
    put initState (.str "k") (.bool false) .undef .undef =
        .ok (⟨[("k", ⟨.bool false, none, none, none⟩)], false, 0, [], 0, [], false⟩,
          .bool false) ∧
    (get (⟨[("k", ⟨.bool false, none, none, none⟩)], false, 0, [], 0, [], false⟩ : CacheState)
        (.str "k")).2 = .bool false ∧
    get initState (.str "k") = (initState, .null) ∧
    (get (⟨[("k", ⟨.bool false, none, none, none⟩)], false, 0, [], 0, [], false⟩ : CacheState)
        (.str "k")).2 ≠ .null := by
  have h := C5_roundtrip initState
    ⟨[("k", ⟨.bool false, none, none, none⟩)], false, 0, [], 0, [], false⟩
    (.str "k") (.bool false) (.bool false) rfl
  exact ⟨rfl, h.2.1, h.2.2.1 (by decide), h.2.2.2 (by decide)⟩

/-- C7: `del` on an absent key returns false and is a no-op; on a present
key it cancels both timer handles (cancelling an absent handle is a no-op:
`clearT l none = l`), removes the entry, returns true, emits no
notification, and a subsequent `del` of the same key returns false until
the key is re-inserted. -/
theorem C7_del (s : CacheState) (kraw : JSVal) :
    (lookAssoc s.cache (toKeyString kraw) = none → del s kraw = (s, false)) ∧
    (∀ r, lookAssoc s.cache (toKeyString kraw) = some r →
      del s kraw = ({ s with cache := eraseKey s.cache (toKeyString kraw),
                             timers := clearT (clearT s.timers r.expirationTimeout)
                               r.refreshInterval }, true) ∧
      lookAssoc (del s kraw).1.cache (toKeyString kraw) = none ∧
      (del s kraw).1.events = s.events ∧
      del (del s kraw).1 kraw = ((del s kraw).1, false)) ∧
    (∀ l : List TimerEntry, clearT l none = l) := by
  refine ⟨fun hl => del_absent hl, ?_, fun l => rfl⟩
  · intro r hl
    have heq : del s kraw = ({ s with cache := eraseKey s.cache (toKeyString kraw),
                                      timers := clearT (clearT s.timers r.expirationTimeout)
                                        r.refreshInterval }, true) := by
      simp only [del, hl]
    have hgone : lookAssoc (del s kraw).1.cache (toKeyString kraw) = none := by
      rw [heq]
      exact lookAssoc_eraseKey_self ..
    exact ⟨heq, hgone, by rw [heq], del_absent hgone⟩

theorem C7_del_witness :
    del initState (.str "k") = (initState, false) ∧
    (del (⟨[("k", ⟨.str "v", some (.fin 9), some 0, some 1⟩)], false, 0,
        [⟨0, .str "k", .expiry, some 9, none⟩, ⟨1, .str "k", .refresh, some 4, some 4⟩],
        2, [], false⟩ : CacheState) (.str "k")).2 = true ∧
    (del (⟨[("k", ⟨.str "v", some (.fin 9), some 0, some 1⟩)], false, 0,
        [⟨0, .str "k", .expiry, some 9, none⟩, ⟨1, .str "k", .refresh, some 4, some 4⟩],
        2, [], false⟩ : CacheState) (.str "k")).1.timers = [] ∧
    del (del (⟨[("k", ⟨.str "v", some (.fin 9), some 0, some 1⟩)], false, 0,
        [⟨0, .str "k", .expiry, some 9, none⟩, ⟨1, .str "k", .refresh, some 4, some 4⟩],
        2, [], false⟩ : CacheState) (.str "k")).1 (.str "k") =
      ((del (⟨[("k", ⟨.str "v", some (.fin 9), some 0, some 1⟩)], false, 0,
        [⟨0, .str "k", .expiry, some 9, none⟩, ⟨1, .str "k", .refresh, some 4, some 4⟩],
        2, [], false⟩ : CacheState) (.str "k")).1, false) := by
  refine ⟨(C7_del initState (.str "k")).1 (by decide), by decide, by decide, ?_⟩
  exact ((C7_del (⟨[("k", ⟨.str "v", some (.fin 9), some 0, some 1⟩)], false, 0,
    [⟨0, .str "k", .expiry, some 9, none⟩, ⟨1, .str "k", .refresh, some 4, some 4⟩],
    2, [], false⟩ : CacheState) (.str "k")).2.1
    ⟨.str "v", some (.fin 9), some 0, some 1⟩ (by decide)).2.2.2

/-- C9: `resetExpiryOnAccess` sets the flag to the supplied boolean (and
changes nothing else); with the argument omitted (`undefined`) it sets the
flag to true; a defined non-boolean argument throws the InvalidArgument
error `"Reset expiry on get flag must be a boolean"` and leaves the whole
state unchanged; a newly constructed store has the flag false. -/
theorem C9_reset_flag (s : CacheState) :
    initState.resetExpiryOnAccess = false ∧
    resetExpiryOnAccess s .undef = .ok { s with resetExpiryOnAccess := true } ∧
    (∀ b, resetExpiryOnAccess s (.bool b) = .ok { s with resetExpiryOnAccess := b }) ∧
    (∀ f : JSVal, f ≠ .undef → (∀ b, f ≠ .bool b) →
      resetExpiryOnAccess s f = .error "Reset expiry on get flag must be a boolean" ∧
      execAct s (.doReset f) = some s) := by
  refine ⟨rfl, rfl, fun b => rfl, ?_⟩
  intro f hu hb
  have herr : resetExpiryOnAccess s f = .error "Reset expiry on get flag must be a boolean" := by
    cases f with
    | undef => exact absurd rfl hu
    | bool b => exact absurd rfl (hb b)
    | null => rfl
    | num n => rfl
    | str st => rfl
  refine ⟨herr, ?_⟩
  simp only [execAct, herr]

theorem C9_reset_flag_witness :
    initState.resetExpiryOnAccess = false ∧
    resetExpiryOnAccess initState .undef =
      .ok { initState with resetExpiryOnAccess := true } ∧
    resetExpiryOnAccess initState (.num (.fin 1)) =
      .error "Reset expiry on get flag must be a boolean" ∧
    execAct initState (.doReset (.num (.fin 1))) = some initState := by
  have h := C9_reset_flag initState
  exact ⟨h.1, h.2.1, (h.2.2.2 (.num (.fin 1)) (by decide) (fun b h => JSVal.noConfusion h)).1,
    (h.2.2.2 (.num (.fin 1)) (by decide) (fun b h => JSVal.noConfusion h)).2⟩

/-- C10: keys are identified by their string coercion (`ToString`, applied
by JS property access): if two keys coerce to the same string, a `put`
under one overwrites the entry stored under the other (key list, size
unchanged; the stored record keeps its timers and duration, only the value
changes), `get` under one reads what was written under the other, `del`
under one removes the other's entry, and a fresh insert appends the
coerced string form to the key list. -/
theorem C10_key_coercion (s : CacheState) (k1 k2 v : JSVal)
    (hk : toKeyString k1 = toKeyString k2) :
    (∀ s' rv, put s k1 v .undef .undef = .ok (s', rv) → (get s' k2).2 = v) ∧
    (∀ r, lookAssoc s.cache (toKeyString k2) = some r →
      ∀ s' rv, put s k1 v .undef .undef = .ok (s', rv) →
        s'.cache.map Prod.fst = s.cache.map Prod.fst ∧ size s' = size s ∧
        lookAssoc s'.cache (toKeyString k2) =
          some ⟨v, r.duration, r.expirationTimeout, r.refreshInterval⟩) ∧
    (∀ r, lookAssoc s.cache (toKeyString k2) = some r →
      (del s k1).2 = true ∧ lookAssoc (del s k1).1.cache (toKeyString k2) = none) ∧
    (lookAssoc s.cache (toKeyString k1) = none →
      ∀ s' rv, put s k1 v .undef .undef = .ok (s', rv) →
        s'.cache.map Prod.fst = s.cache.map Prod.fst ++ [toKeyString k1]) := by
  refine ⟨?_, ?_, ?_, ?_⟩
  · intro s' rv hput
    obtain ⟨⟨R, hc, hRv⟩, -, -⟩ := put_shape hput
    have hl2 : lookAssoc s'.cache (toKeyString k2) = some R := by
      rw [← hk, hc]
      exact lookAssoc_putAssoc_self ..
    exact (get_val hl2).trans hRv
  · intro r hr s' rv hput
    have hr1 : lookAssoc s.cache (toKeyString k1) = some r := by
      rw [hk]
      exact hr
    rw [put_ok badTimeArg_undef badTimeArg_undef] at hput
    simp only [putDur, putRi, hr1, Except.ok.injEq, Prod.mk.injEq] at hput
    obtain ⟨h1, h2⟩ := hput
    subst h1
    have hm : (putAssoc s.cache (toKeyString k1)
        ⟨v, r.duration, r.expirationTimeout, r.refreshInterval⟩).map Prod.fst =
        s.cache.map Prod.fst :=
      map_fst_putAssoc_present _ _ (by simp [hr1])
    refine ⟨hm, ?_, ?_⟩
    · show (objectKeys _).length = (objectKeys _).length
      rw [objectKeys_eq_of_map_fst hm]
    · rw [← hk]
      exact lookAssoc_putAssoc_self ..
  · intro r hr
    have hr1 : lookAssoc s.cache (toKeyString k1) = some r := by
      rw [hk]
      exact hr
    simp only [del, hr1]
    refine ⟨trivial, ?_⟩
    rw [← hk]
    exact lookAssoc_eraseKey_self ..
  · intro hnone s' rv hput
    obtain ⟨⟨R, hc, -⟩, -, -⟩ := put_shape hput
    rw [hc]
    exact map_fst_putAssoc_absent _ _ hnone

theorem C10_key_coercion_witness :
    toKeyString (JSVal.num (.fin 1)) = toKeyString (JSVal.str "1") ∧
    (get (⟨[("1", ⟨.str "x", none, none, none⟩)], false, 0, [], 0, [], false⟩ : CacheState)
      (.str "1")).2 = .str "x" ∧
    (del (⟨[("1", ⟨.str "w", none, none, none⟩)], false, 0, [], 0, [], false⟩ : CacheState)
      (.num (.fin 1))).2 = true ∧
    (⟨[("1", ⟨.str "x", none, none, none⟩)], false, 0, [], 0, [], false⟩
        : CacheState).cache.map Prod.fst =
      initState.cache.map Prod.fst ++ [toKeyString (JSVal.num (.fin 1))] := by
  have h := C10_key_coercion
    ⟨[("1", ⟨.str "w", none, none, none⟩)], false, 0, [], 0, [], false⟩
    (.num (.fin 1)) (.str "1") (.str "x") (by decide)
  have h0 := C10_key_coercion initState (.num (.fin 1)) (.str "1") (.str "x") (by decide)
  refine ⟨by decide, ?_, ?_, ?_⟩
  · exact h.1 ⟨[("1", ⟨.str "x", none, none, none⟩)], false, 0, [], 0, [], false⟩
      (.str "x") rfl
  · exact (h.2.2.1 ⟨.str "w", none, none, none⟩ (by decide)).1
  · exact h0.2.2.2 (by decide)
      ⟨[("1", ⟨.str "x", none, none, none⟩)], false, 0, [], 0, [], false⟩ (.str "x") rfl

/-- C8 counterexample: the claim says `keys()` returns the still-live keys
in insertion order; but `Object.keys` lists array-index-like property keys
first in ascending numeric order.  After `put('1', 'a')` then
`put('0', 'b')` the insertion order is ["1", "0"] while `keys()` returns
["0", "1"]. -/
theorem C8_counterexample :
    (run initState [.doPut (.str "1") (.str "a") .undef .undef,
      .doPut (.str "0") (.str "b") .undef .undef]).map
      (fun s => (s.cache.map Prod.fst, keys s)) =
    some ((["1", "0"] : List String), (["0", "1"] : List String)) := by decide

/-- C8 amended: `keys()` returns the still-live keys with array-index-like
keys (canonical decimal strings below 2^32 - 1) first in ascending numeric
order, followed by the remaining keys in insertion order; in particular it
is exactly insertion order whenever no present key is array-index-like.
The underlying insertion order obeys the claim: updating an existing key
via `put` preserves its position, only insertion of a brand-new key
appends, and removal (del, clear, or an expiration firing) removes the
key. -/
theorem C8_keys_order :
    (∀ s : CacheState, (∀ k ∈ s.cache.map Prod.fst, isArrayIndex k = none) →
      keys s = s.cache.map Prod.fst) ∧
    (∀ s s' : CacheState, ∀ kraw v dur ri rv : JSVal,
      put s kraw v dur ri = .ok (s', rv) →
      (lookAssoc s.cache (toKeyString kraw) ≠ none →
        s'.cache.map Prod.fst = s.cache.map Prod.fst) ∧
      (lookAssoc s.cache (toKeyString kraw) = none →
        s'.cache.map Prod.fst = s.cache.map Prod.fst ++ [toKeyString kraw])) ∧
    (∀ s : CacheState, ∀ kraw : JSVal, ∀ r,
      lookAssoc s.cache (toKeyString kraw) = some r →
      (del s kraw).1.cache.map Prod.fst =
        (s.cache.map Prod.fst).filter (fun x => x != toKeyString kraw)) ∧
    (∀ s : CacheState, (clear s).cache = []) ∧
    (∀ s : CacheState, Reachable s → ∀ i s', execAct s (.doFire i) = some s' →
      ∀ t ∈ s.timers, t.id = i → t.kind = .expiry →
        s'.cache.map Prod.fst =
          (s.cache.map Prod.fst).filter (fun x => x != toKeyString t.rawKey)) := by
  refine ⟨?_, ?_, ?_, fun s => rfl, ?_⟩
  · intro s h
    exact objectKeys_no_idx _ h
  · intro s s' kraw v dur ri rv hput
    obtain ⟨⟨R, hc, -⟩, -, -⟩ := put_shape hput
    constructor
    · intro hp
      rw [hc]
      exact map_fst_putAssoc_present _ _ hp
    · intro hnone
      rw [hc]
      exact map_fst_putAssoc_absent _ _ hnone
  · intro s kraw r hr
    simp only [del, hr]
    exact map_fst_eraseKey ..
  · intro s hreach i s' h t ht htid htkd
    have hi := inv_reachable hreach
    have hf := find_timer hi ht htid
    simp only [execAct] at h
    unfold fire at h
    simp only [hf] at h
    cases hfa : t.fireAt with
    | none =>
      simp only [hfa] at h
      exact Option.noConfusion h
    | some fq =>
      simp only [hfa] at h
      by_cases hqn : fq = s.now
      case neg =>
        rw [if_neg hqn] at h
        exact Option.noConfusion h
      case pos =>
        rw [if_pos hqn] at h
        simp only [htkd] at h
        cases hr0 : lookAssoc s.cache (toKeyString t.rawKey) with
        | none =>
          simp only [hr0] at h
          injection h with h
          subst h
          have hnotin : toKeyString t.rawKey ∉ s.cache.map Prod.fst :=
            lookAssoc_eq_none.mp hr0
          refine (List.filter_eq_self.mpr ?_).symm
          intro x hx
          exact bne_iff_ne.mpr fun he => hnotin (he ▸ hx)
        | some r0 =>
          simp only [hr0, del] at h
          injection h with h
          subst h
          exact map_fst_eraseKey ..

theorem C8_keys_order_witness :
    keys (⟨[("b", ⟨.str "y", none, none, none⟩), ("a", ⟨.str "z", none, none, none⟩)],
        false, 0, [], 0, [], false⟩ : CacheState) = ["b", "a"] ∧
    (⟨[("k", ⟨.str "w", none, none, none⟩)], false, 0, [], 0, [], false⟩
        : CacheState).cache.map Prod.fst =
      initState.cache.map Prod.fst ++ [toKeyString (JSVal.str "k")] ∧
    (del (⟨[("k", ⟨.str "w", none, none, none⟩)], false, 0, [], 0, [], false⟩ : CacheState)
        (.str "k")).1.cache.map Prod.fst =
      ((["k"] : List String).filter (fun x => x != "k")) := by
  refine ⟨?_, ?_, ?_⟩
  · exact C8_keys_order.1 _ (by decide)
  · exact (C8_keys_order.2.1 initState _ (.str "k") (.str "w") .undef .undef (.str "w")
      rfl).2 (by decide)
  · exact C8_keys_order.2.2.1 _ (.str "k") ⟨.str "w", none, none, none⟩ (by decide)

/-- C1: on a key already present with record `r`, `put` overwrites the
value unconditionally.  With no duration argument the timer table, the
stored duration and both handles are left completely untouched (so an
existing expiration timer keeps its original deadline); with a duration
supplied, exactly the old expiration handle is cancelled and a fresh
single-fire timer is scheduled for `duration` from the moment of the call,
while every pending refresh timer survives and the refresh handle is
unchanged.  Symmetrically for `refreshInterval`: supplying it replaces
only the refresh timer and leaves the expiration timer, handle and stored
duration untouched. -/
theorem C1_put_update_frame (s : CacheState) (hreach : Reachable s) (kraw v : JSVal)
    (r : Record) (hr : lookAssoc s.cache (toKeyString kraw) = some r) :
    put s kraw v .undef .undef =
      .ok ({ s with cache := putAssoc s.cache (toKeyString kraw)
                      ⟨v, r.duration, r.expirationTimeout, r.refreshInterval⟩ }, v) ∧
    (∀ d : JNum, badTimeArg (.num d) = false →
      put s kraw v (.num d) .undef =
        .ok ({ s with cache := putAssoc s.cache (toKeyString kraw)
                        ⟨v, some d, some s.nextId, r.refreshInterval⟩,
                      timers := clearT s.timers r.expirationTimeout ++
                        [⟨s.nextId, kraw, .expiry, addDelay s.now d, none⟩],
                      nextId := s.nextId + 1 }, v) ∧
      (∀ q : Int, d = .fin q → addDelay s.now d = some (s.now + q)) ∧
      (∀ t ∈ s.timers, t.kind = .refresh → t ∈ clearT s.timers r.expirationTimeout)) ∧
    (∀ q : JNum, badTimeArg (.num q) = false →
      put s kraw v .undef (.num q) =
        .ok ({ s with cache := putAssoc s.cache (toKeyString kraw)
                        ⟨v, r.duration, r.expirationTimeout, some s.nextId⟩,
                      timers := clearT s.timers r.refreshInterval ++
                        [⟨s.nextId, kraw, .refresh, addDelay s.now q, periodOf q⟩],
                      nextId := s.nextId + 1 }, v) ∧
      (∀ t ∈ s.timers, t.kind = .expiry → t ∈ clearT s.timers r.refreshInterval)) := by
  have hi := inv_reachable hreach
  refine ⟨?_, ?_, ?_⟩
  · rw [put_ok badTimeArg_undef badTimeArg_undef]
    simp only [putDur, putRi, hr]
  · intro d hd
    refine ⟨?_, ?_, ?_⟩
    · rw [put_ok hd badTimeArg_undef]
      simp only [putDur, putRi, hr]
    · intro q hq
      subst hq
      rfl
    · intro t ht hkd
      rw [mem_clearT]
      exact ⟨ht, hi.survivesClear hr .expiry ht
        fun hc => TKind.noConfusion (hc.1.symm.trans hkd)⟩
  · intro q hq
    refine ⟨?_, ?_⟩
    · rw [put_ok badTimeArg_undef hq]
      simp only [putDur, putRi, hr]
    · intro t ht hkd
      rw [mem_clearT]
      exact ⟨ht, hi.survivesClear hr .refresh ht
        fun hc => TKind.noConfusion (hc.1.symm.trans hkd)⟩

theorem C1_put_update_frame_witness :
    Reachable (⟨[("k", ⟨.str "w", some (.fin 5), some 0, some 1⟩)], false, 0,
      [⟨0, .str "k", .expiry, some 5, none⟩, ⟨1, .str "k", .refresh, some 7, some 7⟩],
      2, [], false⟩ : CacheState) ∧
    put (⟨[("k", ⟨.str "w", some (.fin 5), some 0, some 1⟩)], false, 0,
        [⟨0, .str "k", .expiry, some 5, none⟩, ⟨1, .str "k", .refresh, some 7, some 7⟩],
        2, [], false⟩ : CacheState) (.str "k") (.str "x") .undef .undef =
      .ok (⟨[("k", ⟨.str "x", some (.fin 5), some 0, some 1⟩)], false, 0,
        [⟨0, .str "k", .expiry, some 5, none⟩, ⟨1, .str "k", .refresh, some 7, some 7⟩],
        2, [], false⟩, .str "x") ∧
    put (⟨[("k", ⟨.str "w", some (.fin 5), some 0, some 1⟩)], false, 0,
        [⟨0, .str "k", .expiry, some 5, none⟩, ⟨1, .str "k", .refresh, some 7, some 7⟩],
        2, [], false⟩ : CacheState) (.str "k") (.str "x") (.num (.fin 100)) .undef =
      .ok (⟨[("k", ⟨.str "x", some (.fin 100), some 2, some 1⟩)], false, 0,
        [⟨1, .str "k", .refresh, some 7, some 7⟩,
          ⟨2, .str "k", .expiry, some 100, none⟩],
        3, [], false⟩, .str "x") := by
  have hre : Reachable (⟨[("k", ⟨.str "w", some (.fin 5), some 0, some 1⟩)], false, 0,
      [⟨0, .str "k", .expiry, some 5, none⟩, ⟨1, .str "k", .refresh, some 7, some 7⟩],
      2, [], false⟩ : CacheState) :=
    ⟨[.doPut (.str "k") (.str "w") (.num (.fin 5)) (.num (.fin 7))], by decide⟩
  have h := C1_put_update_frame _ hre (.str "k") (.str "x")
    ⟨.str "w", some (.fin 5), some 0, some 1⟩ (by decide)
  exact ⟨hre, h.1, (h.2.1 (.fin 100) (by decide)).1⟩

/-- C6: `get` on a present key returns the current value.  If the store's
reset-on-access flag is disabled (the default), or the entry carries no
stored duration, `get` changes nothing at all.  If the flag is enabled and
the entry has duration `d`, `get` cancels exactly the entry's expiration
handle and schedules a fresh expiration timer for the full stored duration
from the moment of the read — `now + d` for finite `d`, a full restart,
not an additive delay — while every pending refresh timer survives and the
record's refresh handle and duration are unchanged. -/
theorem C6_get_reset (s : CacheState) (hreach : Reachable s) (kraw : JSVal) (r : Record)
    (hr : lookAssoc s.cache (toKeyString kraw) = some r) :
    (get s kraw).2 = r.value ∧
    (s.resetExpiryOnAccess = false → (get s kraw).1 = s) ∧
    (r.duration = none → (get s kraw).1 = s) ∧
    (∀ d, s.resetExpiryOnAccess = true → r.duration = some d →
      (get s kraw).1 =
        { s with cache := putAssoc s.cache (toKeyString kraw)
                   ⟨r.value, some d, some s.nextId, r.refreshInterval⟩,
                 timers := clearT s.timers r.expirationTimeout ++
                   [⟨s.nextId, kraw, .expiry, addDelay s.now d, none⟩],
                 nextId := s.nextId + 1 } ∧
      (∀ q : Int, d = .fin q → addDelay s.now d = some (s.now + q)) ∧
      (∀ t ∈ s.timers, t.kind = .refresh → t ∈ clearT s.timers r.expirationTimeout)) := by
  have hi := inv_reachable hreach
  refine ⟨get_val hr, ?_, ?_, ?_⟩
  · intro hflag
    cases hd : r.duration with
    | none => simp only [get, hr, hd]
    | some d => simp only [get, hr, hd, hflag]
  · intro hd
    cases hflag : s.resetExpiryOnAccess with
    | false => simp only [get, hr, hd, hflag]
    | true => simp only [get, hr, hd, hflag]
  · intro d hflag hd
    refine ⟨?_, ?_, ?_⟩
    · simp only [get, hr, hd, hflag]
    · intro q hq
      subst hq
      rfl
    · intro t ht hkd
      rw [mem_clearT]
      exact ⟨ht, hi.survivesClear hr .expiry ht
        fun hc => TKind.noConfusion (hc.1.symm.trans hkd)⟩

theorem C6_get_reset_witness :
    Reachable (⟨[("k", ⟨.str "v", some (.fin 1000), some 0, none⟩)], true, 500,
      [⟨0, .str "k", .expiry, some 1000, none⟩], 1, [], false⟩ : CacheState) ∧
    (get (⟨[("k", ⟨.str "v", some (.fin 1000), some 0, none⟩)], true, 500,
      [⟨0, .str "k", .expiry, some 1000, none⟩], 1, [], false⟩ : CacheState)
      (.str "k")).2 = .str "v" ∧
    (get (⟨[("k", ⟨.str "v", some (.fin 1000), some 0, none⟩)], true, 500,
        [⟨0, .str "k", .expiry, some 1000, none⟩], 1, [], false⟩ : CacheState)
        (.str "k")).1 =
      ⟨[("k", ⟨.str "v", some (.fin 1000), some 1, none⟩)], true, 500,
        [⟨1, .str "k", .expiry, some 1500, none⟩], 2, [], false⟩ := by
  have hre : Reachable (⟨[("k", ⟨.str "v", some (.fin 1000), some 0, none⟩)], true, 500,
      [⟨0, .str "k", .expiry, some 1000, none⟩], 1, [], false⟩ : CacheState) :=
    ⟨[.doReset (.bool true), .doPut (.str "k") (.str "v") (.num (.fin 1000)) .undef,
      .doAdvance 500], by decide⟩
  have h := C6_get_reset _ hre (.str "k") ⟨.str "v", some (.fin 1000), some 0, none⟩
    (by decide)
  refine ⟨hre, h.1, ?_⟩
  rw [(h.2.2.2 (.fin 1000) rfl rfl).1]
  decide

/-- C2: in every reachable state each present key has exactly one entry
(the key sequence has no duplicates), and for each key there is at most
one pending expiration timer and at most one pending refresh timer (any
two pending timers with the same coerced key and the same kind are the
same timer).  Moreover, when an entry's expiration timer fires, the key is
removed and the emitted expiry notification carries the key together with
the value stored at fire time, and that timer's handle is never pending
again in any later evolution — it fires at most once. -/
theorem C2_entry_timer_invariants (s : CacheState) (hreach : Reachable s) :
    (s.cache.map Prod.fst).Nodup ∧
    (∀ t1 ∈ s.timers, ∀ t2 ∈ s.timers,
      toKeyString t1.rawKey = toKeyString t2.rawKey → t1.kind = t2.kind → t1 = t2) ∧
    (∀ i : Nat, ∀ t ∈ s.timers, t.id = i → t.kind = .expiry →
      ∀ s', execAct s (.doFire i) = some s' →
        ∃ r, lookAssoc s.cache (toKeyString t.rawKey) = some r ∧
          lookAssoc s'.cache (toKeyString t.rawKey) = none ∧
          s'.events = s.events ++ [Event.expiry t.rawKey r.value] ∧
          ∀ tr s'', run s' tr = some s'' → ∀ t' ∈ s''.timers, t'.id ≠ i) := by
  have hi := inv_reachable hreach
  refine ⟨hi.keysND, ?_, ?_⟩
  · intro t1 ht1 t2 ht2 hkey hkd
    obtain ⟨r1, hr1, hh1⟩ := hi.live t1 ht1
    obtain ⟨r2, hr2, hh2⟩ := hi.live t2 ht2
    rw [hkey, hr2] at hr1
    injection hr1 with hr1
    subst hr1
    rw [hkd] at hh1
    rw [hh2] at hh1
    injection hh1 with hh1
    exact hi.idInj t1 ht1 t2 ht2 hh1.symm
  · intro i t ht htid htkd s' h
    have hf := find_timer hi ht htid
    simp only [execAct] at h
    unfold fire at h
    simp only [hf] at h
    obtain ⟨r0, hr0, hh0⟩ := hi.live t ht
    rw [htkd] at hh0
    simp only [handleOf] at hh0
    rw [htid] at hh0
    cases hfa : t.fireAt with
    | none =>
      simp only [hfa] at h
      exact Option.noConfusion h
    | some fq =>
      simp only [hfa] at h
      by_cases hqn : fq = s.now
      case neg =>
        rw [if_neg hqn] at h
        exact Option.noConfusion h
      case pos =>
        rw [if_pos hqn] at h
        simp only [htkd] at h
        simp only [hr0, del] at h
        injection h with h
        subst h
        refine ⟨r0, hr0, lookAssoc_eraseKey_self .., rfl, ?_⟩
        intro tr s'' hrun t' ht'
        refine dead_run hrun ?_ ?_ t' ht'
        · show i < s.nextId
          exact htid ▸ hi.tOk.2.1 t ht
        · intro t2 ht2
          have ht2' : t2 ∈ clearT (clearT (clearT s.timers (some i)) r0.expirationTimeout)
              r0.refreshInterval := ht2
          have hne := (mem_clearT.mp (mem_clearT.mp (mem_clearT.mp ht2').1).1).2
          intro he
          exact hne (by rw [he])

theorem C2_entry_timer_invariants_witness :
    ((⟨[("k", ⟨.str "v", some (.fin 1000), some 0, none⟩)], false, 1000,
        [⟨0, .str "k", .expiry, some 1000, none⟩], 1, [], false⟩
      : CacheState).cache.map Prod.fst).Nodup ∧
    (∃ r, lookAssoc (⟨[("k", ⟨.str "v", some (.fin 1000), some 0, none⟩)], false, 1000,
          [⟨0, .str "k", .expiry, some 1000, none⟩], 1, [], false⟩
        : CacheState).cache (toKeyString (JSVal.str "k")) = some r ∧
      lookAssoc (⟨[], false, 1000, [], 1, [Event.expiry (.str "k") (.str "v")], false⟩
        : CacheState).cache (toKeyString (JSVal.str "k")) = none ∧
      (⟨[], false, 1000, [], 1, [Event.expiry (.str "k") (.str "v")], false⟩
          : CacheState).events =
        (⟨[("k", ⟨.str "v", some (.fin 1000), some 0, none⟩)], false, 1000,
          [⟨0, .str "k", .expiry, some 1000, none⟩], 1, [], false⟩
          : CacheState).events ++ [Event.expiry (.str "k") r.value] ∧
      ∀ tr s'', run (⟨[], false, 1000, [], 1,
          [Event.expiry (.str "k") (.str "v")], false⟩ : CacheState) tr = some s'' →
        ∀ t' ∈ s''.timers, t'.id ≠ 0) := by
  have hre : Reachable (⟨[("k", ⟨.str "v", some (.fin 1000), some 0, none⟩)], false, 1000,
      [⟨0, .str "k", .expiry, some 1000, none⟩], 1, [], false⟩ : CacheState) :=
    ⟨[.doPut (.str "k") (.str "v") (.num (.fin 1000)) .undef, .doAdvance 1000], by decide⟩
  have h := C2_entry_timer_invariants _ hre
  exact ⟨h.1, h.2.2 0 ⟨0, .str "k", .expiry, some 1000, none⟩ (by decide) rfl rfl
    ⟨[], false, 1000, [], 1, [Event.expiry (.str "k") (.str "v")], false⟩ (by decide)⟩

/-- C3: once a key is absent from a reachable store — whether it was never
inserted or left by del, clear, or an expiration firing — no expiry or
refresh notification is emitted for it by any further steps until a `put`
re-creates it (the event log restricted to that key never grows).  In
particular `clear` cancels every pending timer: immediately afterwards
`size()` is 0, `keys()` is empty, the timer table is empty, and no timer
firing for any previously-held key is possible. -/
theorem C3_removed_key_silent (s : CacheState) (hreach : Reachable s) (k : String)
    (hk : lookAssoc s.cache k = none) :
    (∀ tr s', run s tr = some s' →
      (∀ a ∈ tr, ∀ kraw v d ri, a = Act.doPut kraw v d ri → toKeyString kraw ≠ k) →
      eventsFor s' k = eventsFor s k) ∧
    (keys (clear s) = [] ∧ size (clear s) = 0 ∧ (clear s).timers = [] ∧
      ∀ i, execAct (clear s) (.doFire i) = none) := by
  have hi := inv_reachable hreach
  constructor
  · intro tr s' hrun hnp
    exact (gone_run hi hrun hk hnp).2
  · have htn := clear_timers_nil hi
    refine ⟨rfl, rfl, htn, ?_⟩
    intro i
    simp only [execAct]
    unfold fire
    rw [htn]
    rfl

theorem C3_removed_key_silent_witness :
    eventsFor (⟨[("a", ⟨.str "v", some (.fin 1000), some 0, none⟩)], false, 500,
        [⟨0, .str "a", .expiry, some 1000, none⟩], 1, [], false⟩ : CacheState) "b" =
      eventsFor (⟨[("a", ⟨.str "v", some (.fin 1000), some 0, none⟩)], false, 0,
        [⟨0, .str "a", .expiry, some 1000, none⟩], 1, [], false⟩ : CacheState) "b" ∧
    keys (clear (⟨[("a", ⟨.str "v", some (.fin 1000), some 0, none⟩)], false, 0,
      [⟨0, .str "a", .expiry, some 1000, none⟩], 1, [], false⟩ : CacheState)) = [] ∧
    size (clear (⟨[("a", ⟨.str "v", some (.fin 1000), some 0, none⟩)], false, 0,
      [⟨0, .str "a", .expiry, some 1000, none⟩], 1, [], false⟩ : CacheState)) = 0 ∧
    (clear (⟨[("a", ⟨.str "v", some (.fin 1000), some 0, none⟩)], false, 0,
      [⟨0, .str "a", .expiry, some 1000, none⟩], 1, [], false⟩ : CacheState)).timers = [] ∧
    execAct (clear (⟨[("a", ⟨.str "v", some (.fin 1000), some 0, none⟩)], false, 0,
      [⟨0, .str "a", .expiry, some 1000, none⟩], 1, [], false⟩ : CacheState))
      (.doFire 0) = none := by
  have hre : Reachable (⟨[("a", ⟨.str "v", some (.fin 1000), some 0, none⟩)], false, 0,
      [⟨0, .str "a", .expiry, some 1000, none⟩], 1, [], false⟩ : CacheState) :=
    ⟨[.doPut (.str "a") (.str "v") (.num (.fin 1000)) .undef], by decide⟩
  have h := C3_removed_key_silent _ hre "b" (by decide)
  refine ⟨?_, h.2.1, h.2.2.1, h.2.2.2.1, h.2.2.2.2 0⟩
  refine h.1 [.doAdvance 500] _ (by decide) ?_
  intro a ha kraw v d ri he
  simp only [List.mem_singleton] at ha
  subst ha
  exact Act.noConfusion he

end RefreshableCache
